import Mathlib

/-!
# mybackup: the per-project file store of `cmd/server/main.go`

A shallow embedding of `hasPermissions` and of the three HTTP handlers
`createFile`, `getFileList` and `getFile`, together with the library calls
they make: `strings.Split`, `strings.CutPrefix`, `filepath.Join`,
`os.ReadFile`, `os.ReadDir`, `os.Create`, `(*os.File).ReadFrom`,
`json.Marshal` and `http.Error`.

* Go strings are lists of characters.
* A handler is a function from the response writer, the request and the world
  (the filesystem and the log of the filesystem calls made so far) to the
  response writer and the world it leaves behind.
* The filesystem maps absolute cleaned paths to nodes; there are no symbolic
  links.  Sizes and the free space are counted in bytes of UTF-8.  A write
  fails when the free space runs out.
* `r.FormFile` parses the multipart form: file parts that do not fit in the
  32 MiB kept in memory are written to a temporary file.
* Calls to the logger and the deferred `Close` calls have no counterpart.

The definitions come first, the lemmas and the results on the handlers after
them.
-/

set_option autoImplicit false

namespace MyBackup

/-- A Go string. -/
abbrev Str := List Char

/-! ## strings -/

/-- Go `strings.Split(s, sep)` for a one-byte separator: the pieces of `s`
between the occurrences of `sep`; always at least one piece. -/
def stringsSplit : Str → Char → List Str
  | [], _ => [[]]
  | c :: cs, sep =>
    if c = sep then [] :: stringsSplit cs sep
    else
      match stringsSplit cs sep with
      | [] => [[c]]
      | piece :: pieces => (c :: piece) :: pieces

/-- Go `strings.Join(elems, sep)`. -/
def stringsJoin : List Str → Str → Str
  | [], _ => []
  | [a], _ => a
  | a :: b :: rest, sep => a ++ sep ++ stringsJoin (b :: rest) sep

/-- Go `strings.HasPrefix(s, prefix)`. -/
def stringsHasPrefix : Str → Str → Bool
  | _, [] => true
  | [], _ :: _ => false
  | c :: cs, p :: ps => c = p && stringsHasPrefix cs ps

/-- Go `strings.CutPrefix(s, prefix)`: `s` without the leading `prefix` and
`true`, or `s` itself and `false` when `s` does not start with `prefix`. -/
def stringsCutPrefix (s pre : Str) : Str × Bool :=
  if stringsHasPrefix s pre then (s.drop pre.length, true) else (s, false)

/-- The number of bytes of a string (in UTF-8), what Go's `len` gives. -/
def byteLen : Str → Nat
  | [] => 0
  | c :: cs => c.utf8Size + byteLen cs

/-- The longest prefix of whole characters that takes at most `n` bytes. -/
def takeBytes : Nat → Str → Str
  | _, [] => []
  | n, c :: cs => if c.utf8Size ≤ n then c :: takeBytes (n - c.utf8Size) cs else []

/-! ## path/filepath (Unix) -/

/-- The output buffer of `filepath.Clean`, kept as the list of path elements
written so far, and `dotdot`, the number of leading elements that a `..`
must not remove. -/
structure CleanBuf where
  out : List Str
  dotdot : Nat
  deriving DecidableEq, Repr

/-- One turn of the loop of `filepath.Clean`, on the next path element. -/
def cleanStep (rooted : Bool) (b : CleanBuf) (elem : Str) : CleanBuf :=
  if elem = [] then b
  else if elem = ['.'] then b
  else if elem = ['.', '.'] then
    if b.out.length > b.dotdot then { b with out := b.out.dropLast }
    else if !rooted then { out := b.out ++ [elem], dotdot := b.out.length + 1 }
    else b
  else { b with out := b.out ++ [elem] }

/-- The elements `filepath.Clean` keeps, in order. -/
def cleanElems (rooted : Bool) (path : Str) : List Str :=
  ((stringsSplit path '/').foldl (cleanStep rooted) ⟨[], 0⟩).out

/-- Whether a path starts with the separator. -/
def isRooted (path : Str) : Bool :=
  path.head? = some '/'

/-- Go `filepath.Clean(path)`. -/
def filepathClean (path : Str) : Str :=
  if path = [] then ['.']
  else
    let rooted := isRooted path
    let out := cleanElems rooted path
    if rooted then '/' :: stringsJoin out ['/']
    else if out = [] then ['.']
    else stringsJoin out ['/']

/-- Go `filepath.Join(elem...)`: the elements from the first non-empty one on,
joined by the separator and cleaned; the empty string when all are empty. -/
def filepathJoin : List Str → Str
  | [] => []
  | e :: rest =>
    if e ≠ [] then filepathClean (stringsJoin (e :: rest) ['/'])
    else filepathJoin rest

/-! ## The filesystem -/

/-- The error numbers the model's filesystem calls fail with. -/
inductive Errno where
  | ENOENT | EISDIR | ENOTDIR | ENOSPC | EEXIST
  deriving DecidableEq, Repr

/-- A Go `error` value: an operating-system error or a formatted message. -/
inductive GoError where
  | errno (e : Errno)
  | text (msg : Str)
  deriving DecidableEq, Repr

/-- What a path names: a regular file with its bytes, a directory (with the
size its metadata reports), or a name that a directory read still reports
but whose metadata lookup fails. -/
inductive Node where
  | file (data : Str)
  | dir (size : Nat)
  | ghost
  deriving DecidableEq, Repr

/-- A filesystem state: the nodes keyed by absolute cleaned path, the working
directory of the process, the number of bytes that can still be written, and
the number the name of the next temporary file is made of. -/
structure FS where
  entries : List (Str × Node)
  cwd : Str
  free : Nat
  tempSeed : Nat
  deriving DecidableEq, Repr

/-- The node stored under a key. -/
def lookupNode : List (Str × Node) → Str → Option Node
  | [], _ => none
  | (k, n) :: rest, key => if k = key then some n else lookupNode rest key

/-- Store a node under a key, replacing the node already there. -/
def setNode (key : Str) (v : Node) : List (Str × Node) → List (Str × Node)
  | [] => [(key, v)]
  | (k, n) :: rest => if k = key then (key, v) :: rest else (k, n) :: setNode key v rest

/-- The absolute cleaned path the kernel resolves `path` to (no symbolic
links): relative paths start at the working directory. -/
def FS.resolve (fs : FS) (path : Str) : Str :=
  if isRooted path then filepathClean path else filepathClean (fs.cwd ++ '/' :: path)

/-- The directory holding the node at an absolute cleaned path. -/
def parentDir (key : Str) : Str :=
  filepathClean (key ++ ['/', '.', '.'])

/-- The last element of a path. -/
def baseName (key : Str) : Str :=
  (stringsSplit key '/').getLastD []

/-- The calls made to the filesystem, with the path each was given. -/
inductive FsCall where
  | readFile (path : Str)
  | readDir (path : Str)
  | lstat (path : Str)
  | create (path : Str)
  | write (path : Str)
  | createTemp (path : Str)
  | openFile (path : Str)
  deriving DecidableEq, Repr

/-- The filesystem together with the log of the calls made to it. -/
structure World where
  fs : FS
  log : List FsCall
  deriving DecidableEq, Repr

/-- Go `os.ReadFile(path)`, without logging: the whole content of a regular
file. -/
def FS.readFile (fs : FS) (path : Str) : Except GoError Str :=
  if path = [] then .error (.errno .ENOENT)
  else
    match lookupNode fs.entries (fs.resolve path) with
    | some (.file data) => .ok data
    | some (.dir _) => .error (.errno .EISDIR)
    | some .ghost => .error (.errno .ENOENT)
    | none => .error (.errno .ENOENT)

/-- Go `os.ReadFile(path)`. -/
def osReadFile (path : Str) (w : World) : World × Except GoError Str :=
  ({ w with log := w.log ++ [.readFile path] }, w.fs.readFile path)

/-- An entry returned by `os.ReadDir`. -/
structure DirEntry where
  name : Str
  node : Node
  deriving DecidableEq, Repr

/-- Go `fs.FileInfo`, reduced to the size. -/
structure FileInfo where
  size : Nat
  deriving DecidableEq, Repr

/-- Lexicographic order on strings, by code point (the byte order of UTF-8). -/
def strLess : Str → Str → Bool
  | [], [] => false
  | [], _ :: _ => true
  | _ :: _, [] => false
  | a :: as, b :: bs => decide (a.toNat < b.toNat) || (a = b && strLess as bs)

/-- Insert an entry into a list sorted by name. -/
def insertEntry (e : DirEntry) : List DirEntry → List DirEntry
  | [] => [e]
  | x :: xs => if strLess e.name x.name then e :: x :: xs else x :: insertEntry e xs

/-- Sort entries by name, as `os.ReadDir` does. -/
def sortEntries (l : List DirEntry) : List DirEntry :=
  l.foldr insertEntry []

/-- The direct entries of the directory at absolute path `key`. -/
def childrenOf (entries : List (Str × Node)) (key : Str) : List DirEntry :=
  entries.filterMap fun e =>
    if e.1 ≠ key ∧ parentDir e.1 = key then some ⟨baseName e.1, e.2⟩ else none

/-- Go `os.ReadDir(path)`, without logging: the entries of a directory,
sorted by file name. -/
def FS.readDir (fs : FS) (path : Str) : Except GoError (List DirEntry) :=
  if path = [] then .error (.errno .ENOENT)
  else
    match lookupNode fs.entries (fs.resolve path) with
    | some (.dir _) => .ok (sortEntries (childrenOf fs.entries (fs.resolve path)))
    | some (.file _) => .error (.errno .ENOTDIR)
    | some .ghost => .error (.errno .ENOENT)
    | none => .error (.errno .ENOENT)

/-- Go `os.ReadDir(path)`. -/
def osReadDir (path : Str) (w : World) : World × Except GoError (List DirEntry) :=
  ({ w with log := w.log ++ [.readDir path] }, w.fs.readDir path)

/-- The size lookup of one entry, without logging. -/
def DirEntry.stat (e : DirEntry) : Except GoError FileInfo :=
  match e.node with
  | .file data => .ok ⟨byteLen data⟩
  | .dir size => .ok ⟨size⟩
  | .ghost => .error (.errno .ENOENT)

/-- Go `DirEntry.Info()` on an entry of the directory `dir`. -/
def DirEntry.Info (dir : Str) (e : DirEntry) (w : World) : World × Except GoError FileInfo :=
  ({ w with log := w.log ++ [.lstat (dir ++ '/' :: e.name)] }, e.stat)

/-- An open file: the path it was opened with and the node it refers to. -/
structure OsFile where
  name : Str
  key : Str
  deriving DecidableEq, Repr

/-- Go `os.Create(path)`, without logging: create the file or truncate the
existing one.  The directory holding it must exist. -/
def FS.create (fs : FS) (path : Str) : FS × Except GoError OsFile :=
  if path = [] then (fs, .error (.errno .ENOENT))
  else
    let key := fs.resolve path
    match lookupNode fs.entries (parentDir key) with
    | some (.dir _) =>
      match lookupNode fs.entries key with
      | some (.dir _) => (fs, .error (.errno .EISDIR))
      | some (.file old) =>
        ({ fs with entries := setNode key (.file []) fs.entries, free := fs.free + byteLen old },
          .ok ⟨path, key⟩)
      | _ => ({ fs with entries := setNode key (.file []) fs.entries }, .ok ⟨path, key⟩)
    | some (.file _) => (fs, .error (.errno .ENOTDIR))
    | _ => (fs, .error (.errno .ENOENT))

/-- Go `os.Create(path)`. -/
def osCreate (path : Str) (w : World) : World × Except GoError OsFile :=
  let r := w.fs.create path
  (⟨r.1, w.log ++ [.create path]⟩, r.2)

/-- Go `dst.ReadFrom(src)` and `dst.Write(b)`, without logging: append the
bytes of `src` to the file; when the free space runs out what fits is written
(whole characters only) and the call fails. -/
def FS.readFrom (fs : FS) (dst : OsFile) (src : Str) : FS × Option GoError :=
  let n := min (byteLen src) fs.free
  let old := match lookupNode fs.entries dst.key with
    | some (.file data) => data
    | _ => []
  ({ fs with entries := setNode dst.key (.file (old ++ takeBytes n src)) fs.entries,
             free := fs.free - n },
    if n < byteLen src then some (.errno .ENOSPC) else none)

/-- Go `dst.ReadFrom(src)`. -/
def OsFile.ReadFrom (dst : OsFile) (src : Str) (w : World) : World × Option GoError :=
  let r := w.fs.readFrom dst src
  (⟨r.1, w.log ++ [.write dst.name]⟩, r.2)

/-- Go `dst.Write(b)`. -/
def OsFile.Write (dst : OsFile) (b : Str) (w : World) : World × Option GoError :=
  let r := w.fs.readFrom dst b
  (⟨r.1, w.log ++ [.write dst.name]⟩, r.2)

/-- Go `os.TempDir()` when `TMPDIR` is not set. -/
def tempDir : Str := "/tmp".toList

/-- Go `os.CreateTemp("", "multipart-")`, without logging: a new empty file in
the temporary directory, named by the pattern and a number.  Go draws the
number at random and draws again when the name is taken; here the number is
`tempSeed` and a taken name is an error. -/
def FS.createTemp (fs : FS) : FS × Except GoError OsFile :=
  let name := tempDir ++ "/multipart-".toList ++ Nat.toDigits 10 fs.tempSeed
  match lookupNode fs.entries tempDir with
  | some (.dir _) =>
    match lookupNode fs.entries name with
    | none =>
      ({ fs with entries := setNode name (.file []) fs.entries, tempSeed := fs.tempSeed + 1 },
        .ok ⟨name, name⟩)
    | some _ => ({ fs with tempSeed := fs.tempSeed + 1 }, .error (.errno .EEXIST))
  | some (.file _) => (fs, .error (.errno .ENOTDIR))
  | _ => (fs, .error (.errno .ENOENT))

/-- Go `os.CreateTemp("", "multipart-")`. -/
def osCreateTemp (w : World) : World × Except GoError OsFile :=
  let r := w.fs.createTemp
  (⟨r.1, w.log ++ [.createTemp
    (tempDir ++ "/multipart-".toList ++ Nat.toDigits 10 w.fs.tempSeed)]⟩, r.2)

/-! ## net/http and encoding/json -/

/-- The response writer: the status code once the header is written, and the
body bytes written so far.  Writes to it do not fail. -/
structure ResponseWriter where
  wroteHeader : Option Nat
  body : Str
  deriving DecidableEq, Repr

/-- The writer a handler starts with. -/
def ResponseWriter.fresh : ResponseWriter := ⟨none, []⟩

/-- Go `w.WriteHeader(code)`: only the first call counts. -/
def ResponseWriter.WriteHeader (w : ResponseWriter) (code : Nat) : ResponseWriter :=
  match w.wroteHeader with
  | some _ => w
  | none => { w with wroteHeader := some code }

/-- Go `w.Write(data)`: writes the header with status 200 if none was written. -/
def ResponseWriter.Write (w : ResponseWriter) (data : Str) : ResponseWriter × Option GoError :=
  let w1 := w.WriteHeader 200
  ({ w1 with body := w1.body ++ data }, none)

/-- The status code the client receives: 200 when the handler returned without
writing a header. -/
def ResponseWriter.status (w : ResponseWriter) : Nat :=
  w.wroteHeader.getD 200

/-- Go `http.Error(w, error, code)`: the status and the message followed by a
newline. -/
def httpError (w : ResponseWriter) (error : Str) (code : Nat) : ResponseWriter :=
  ((w.WriteHeader code).Write (error ++ ['\n'])).1

def StatusBadRequest : Nat := 400
def StatusUnauthorized : Nat := 401
def StatusForbidden : Nat := 403
def StatusInternalServerError : Nat := 500

/-- The uploaded file's header (`multipart.FileHeader`). -/
structure FileHeader where
  Filename : Str
  deriving DecidableEq, Repr

/-- An HTTP request as the handlers see it: the route parameters, the header
fields and the file parts of the multipart body in their order (form field
name, content and header of each). -/
structure Request where
  params : List (Str × Str)
  header : List (Str × Str)
  files : List (Str × (Str × FileHeader))
  deriving DecidableEq, Repr

/-- First value stored under a key of an association list. -/
def assocGet {α : Type} : List (Str × α) → Str → Option α
  | [], _ => none
  | (k, v) :: rest, key => if k = key then some v else assocGet rest key

/-- Go `params.ByName(name)`: the empty string when there is no such parameter. -/
def Request.ByName (r : Request) (name : Str) : Str :=
  (assocGet r.params name).getD []

/-- Go `r.Header.Get(key)`: the empty string when the field is absent. -/
def Request.HeaderGet (r : Request) (key : Str) : Str :=
  (assocGet r.header key).getD []

/-- Go `defaultMaxMemory`, 32 MiB: what `r.FormFile` lets the form parser keep
of the file parts in memory. -/
def defaultMaxMemory : Nat := 33554432

/-- A file of the parsed form (`multipart.FileHeader` with its content): the
bytes, the header, and the temporary file when the part was written to disk. -/
structure FormFilePart where
  content : Str
  header : FileHeader
  tmpfile : Option Str
  deriving DecidableEq, Repr

/-- The loop of `readForm` in `mime/multipart` over the file parts: `budget` is
what is left of the memory for file parts, `file` the temporary file once it
is created (the allowance for headers and form values is left out).  A part larger than the budget goes to the temporary file, the
others stay in memory and use up the budget.  A failure to create or to write
the temporary file ends the parsing. -/
def readFormParts : List (Str × (Str × FileHeader)) → Nat → Option OsFile → World →
    World × Except GoError (List (Str × FormFilePart))
  | [], _, _, w => (w, .ok [])
  | (name, (content, header)) :: parts, budget, file, w =>
    if byteLen content > budget then
      match file with
      | none =>
        match osCreateTemp w with
        | (w1, .error err) => (w1, .error err)
        | (w1, .ok f) =>
          match f.Write content w1 with
          | (w2, some err) => (w2, .error err)
          | (w2, none) =>
            match readFormParts parts budget (some f) w2 with
            | (w3, .error err) => (w3, .error err)
            | (w3, .ok form) => (w3, .ok ((name, ⟨content, header, some f.name⟩) :: form))
      | some f =>
        match f.Write content w with
        | (w2, some err) => (w2, .error err)
        | (w2, none) =>
          match readFormParts parts budget (some f) w2 with
          | (w3, .error err) => (w3, .error err)
          | (w3, .ok form) => (w3, .ok ((name, ⟨content, header, some f.name⟩) :: form))
    else
      match readFormParts parts (budget - byteLen content) file w with
      | (w3, .error err) => (w3, .error err)
      | (w3, .ok form) => (w3, .ok ((name, ⟨content, header, none⟩) :: form))

/-- Go `r.ParseMultipartForm(defaultMaxMemory)`. -/
def Request.ParseMultipartForm (r : Request) (w : World) :
    World × Except GoError (List (Str × FormFilePart)) :=
  readFormParts r.files defaultMaxMemory none w

/-- Go `r.FormFile(key)`: parse the form, then the first file of that form
field, opened; `none` stands for an error (the form does not parse, or has no
such file).  The opened file delivers the bytes of the part.  The server
removes the temporary file once the handler has returned. -/
def Request.FormFile (r : Request) (key : Str) (w : World) :
    World × Option (Str × FileHeader) :=
  match r.ParseMultipartForm w with
  | (w1, .error _) => (w1, none)
  | (w1, .ok form) =>
    match assocGet form key with
    | none => (w1, none)
    | some part =>
      match part.tmpfile with
      | none => (w1, some (part.content, part.header))
      | some name => ({ w1 with log := w1.log ++ [.openFile name] }, some (part.content, part.header))

/-- Go `type File struct`. -/
structure File where
  Name : Str
  Size : Nat
  deriving DecidableEq, Repr

/-- A lower-case hexadecimal digit. -/
def hexDigit (n : Nat) : Char :=
  "0123456789abcdef".toList.getD n '0'

/-- The encoding `encoding/json` gives one character of a string (with HTML
escaping, as `json.Marshal` does). -/
def jsonEscapeChar (c : Char) : Str :=
  if c = '"' then ['\\', '"']
  else if c = '\\' then ['\\', '\\']
  else if c = '\x08' then ['\\', 'b']
  else if c = '\x0c' then ['\\', 'f']
  else if c = '\n' then ['\\', 'n']
  else if c = '\r' then ['\\', 'r']
  else if c = '\t' then ['\\', 't']
  else if c.toNat < 32 ∨ c = '<' ∨ c = '>' ∨ c = '&' then
    ['\\', 'u', '0', '0', hexDigit (c.toNat / 16), hexDigit (c.toNat % 16)]
  else if c.toNat = 0x2028 then "\\u2028".toList
  else if c.toNat = 0x2029 then "\\u2029".toList
  else [c]

/-- A JSON string literal. -/
def jsonString (s : Str) : Str :=
  '"' :: (s.flatMap jsonEscapeChar ++ ['"'])

/-- The JSON object of one `File`, fields in declaration order under their
tags. -/
def jsonFile (f : File) : Str :=
  "\x7b\"name\":".toList ++ jsonString f.Name ++ ",\"bytes\":".toList
    ++ Nat.toDigits 10 f.Size ++ "\x7d".toList

/-- Go `json.Marshal(&fileNames)` for a `[]File`; a nil slice (`none`) encodes
as `null`. -/
def jsonMarshal : Option (List File) → Except GoError Str
  | none => .ok "null".toList
  | some files => .ok ('[' :: (stringsJoin (files.map jsonFile) [','] ++ [']']))

/-- Go `append(s, x)` on a possibly nil slice. -/
def goAppend {α : Type} (s : Option (List α)) (x : α) : Option (List α) :=
  some (s.getD [] ++ [x])

/-! ## cmd/server/main.go -/

/-- Go `type Config struct`, the fields the handlers use. -/
structure Config where
  Root : Str
  DataDir : Str
  UsersDir : Str
  deriving DecidableEq, Repr

/-- Go `hasPermissions(user, project, path)`; `none` is the nil error. -/
def hasPermissions (user project path : Str) (w : World) : World × Option GoError :=
  match osReadFile path w with
  | (w1, .error err) => (w1, some err)
  | (w1, .ok permissionsData) =>
    let permissions := stringsSplit permissionsData '\n'
    let found := permissions.foldl
      (fun found permission => if permission = project then true else found) false
    if !found then
      (w1, some (.text (user ++ " isn't allowed in ".toList ++ path)))
    else (w1, none)

/-- Go `createFile(cfg)`. -/
def createFile (cfg : Config) (rw : ResponseWriter) (r : Request) (w : World) :
    ResponseWriter × World :=
  let project := r.ByName "project".toList
  match r.FormFile "source".toList w with
  | (w0, none) =>
    (httpError rw "\x7b\"error\": \"failed to get source file\"\x7d".toList StatusBadRequest, w0)
  | (w0, some (file, header)) =>
    match stringsCutPrefix (r.HeaderGet "Authorization".toList) "Token ".toList with
    | (_, false) =>
      (httpError rw "\x7b\"error\": \"Unauthorized\"\x7d".toList StatusUnauthorized, w0)
    | (user, true) =>
      let path := filepathJoin [cfg.Root, cfg.UsersDir, user, "projects".toList]
      match hasPermissions user project path w0 with
      | (w1, some _) => (httpError rw "\x7b\"error\": \"forbidden\"\x7d".toList StatusForbidden, w1)
      | (w1, none) =>
        let path := filepathJoin [cfg.Root, cfg.DataDir, project, header.Filename]
        match osCreate path w1 with
        | (w2, .error _) =>
          (httpError rw "\x7b\"error\": \"failed to create file\"\x7d".toList
            StatusInternalServerError, w2)
        | (w2, .ok dst) =>
          match dst.ReadFrom file w2 with
          | (w3, some _) =>
            (httpError rw "\x7b\"error\", \"failed to write file\"\x7d".toList
              StatusInternalServerError, w3)
          | (w3, none) => (rw, w3)

/-- The loop of `getFileList` over the directory entries: entries whose
`Info()` fails are skipped. -/
def collectFiles (dir : Str) : List DirEntry → Option (List File) → World →
    Option (List File) × World
  | [], fileNames, w => (fileNames, w)
  | file :: files, fileNames, w =>
    match file.Info dir w with
    | (w1, .error _) => collectFiles dir files fileNames w1
    | (w1, .ok info) => collectFiles dir files (goAppend fileNames ⟨file.name, info.size⟩) w1

/-- Go `getFileList(cfg)`. -/
def getFileList (cfg : Config) (rw : ResponseWriter) (r : Request) (w : World) :
    ResponseWriter × World :=
  let project := r.ByName "project".toList
  match stringsCutPrefix (r.HeaderGet "Authorization".toList) "Token ".toList with
  | (_, false) => (httpError rw "\x7b\"error\": \"Unauthorized\"\x7d".toList StatusUnauthorized, w)
  | (user, true) =>
    let path := filepathJoin [cfg.Root, cfg.UsersDir, user, "projects".toList]
    match hasPermissions user project path w with
    | (w1, some _) => (httpError rw "\x7b\"error\": \"forbidden\"\x7d".toList StatusForbidden, w1)
    | (w1, none) =>
      let path := filepathJoin [cfg.Root, cfg.DataDir, project]
      match osReadDir path w1 with
      | (w2, .error _) =>
        (httpError rw "\x7b\"error\": \"failed to list projects\"\x7d".toList
          StatusInternalServerError, w2)
      | (w2, .ok files) =>
        match collectFiles path files (some []) w2 with
        | (fileNames, w3) =>
          match jsonMarshal fileNames with
          | .error _ =>
            (httpError rw "\x7b\"error\": \"Failed to produce output\"\x7d".toList
              StatusInternalServerError, w3)
          | .ok output =>
            match rw.Write output with
            | (rw1, some _) =>
              (httpError rw1 "\x7b\"error\": \"server error\"\x7d".toList
                StatusInternalServerError, w3)
            | (rw1, none) => (rw1, w3)

/-- Go `getFile(cfg)`. -/
def getFile (cfg : Config) (rw : ResponseWriter) (r : Request) (w : World) :
    ResponseWriter × World :=
  let project := r.ByName "project".toList
  let fname := r.ByName "fname".toList
  match stringsCutPrefix (r.HeaderGet "Authorization".toList) "Token ".toList with
  | (_, false) => (httpError rw "\x7b\"error\": \"Unauthorized\"\x7d".toList StatusUnauthorized, w)
  | (user, true) =>
    let path := filepathJoin [cfg.Root, cfg.UsersDir, user, "projects".toList]
    match hasPermissions user project path w with
    | (w1, some _) => (httpError rw "\x7b\"error\": \"forbidden\"\x7d".toList StatusForbidden, w1)
    | (w1, none) =>
      let path := filepathJoin [cfg.Root, cfg.DataDir, project, fname]
      match osReadFile path w1 with
      | (w2, .error _) =>
        (httpError rw "\x7b\"error\": \"failed to retrieve file\"\x7d".toList
          StatusInternalServerError, w2)
      | (w2, .ok data) =>
        match rw.Write data with
        | (rw1, some _) =>
          (httpError rw1 "\x7b\"error\": \"server error\"\x7d".toList
            StatusInternalServerError, w2)
        | (rw1, none) => (rw1, w2)

/-! ## Names for the paths the handlers build -/

/-- The header value prefix of the token scheme. -/
def tokenPrefix : Str := "Token ".toList

/-- The path `hasPermissions` is given: `filepath.Join(cfg.Root, cfg.UsersDir, user, "projects")`. -/
def permissionsPath (cfg : Config) (user : Str) : Str :=
  filepathJoin [cfg.Root, cfg.UsersDir, user, "projects".toList]

/-- The path `getFileList` lists: `filepath.Join(cfg.Root, cfg.DataDir, project)`. -/
def projectPath (cfg : Config) (project : Str) : Str :=
  filepathJoin [cfg.Root, cfg.DataDir, project]

/-- The path `createFile` writes and `getFile` reads:
`filepath.Join(cfg.Root, cfg.DataDir, project, name)`. -/
def contentPath (cfg : Config) (project name : Str) : Str :=
  filepathJoin [cfg.Root, cfg.DataDir, project, name]

/-! ## A sample deployment -/

/-- Root `/srv`, data under `data`, users under `users`. -/
def sampleConfig : Config := ⟨"/srv".toList, "data".toList, "users".toList⟩

/-- A filesystem where `alice` may use `proj1` and `bob` may use `proj2`, and
the permission file of `mallory` has the line `..`; the directory of `proj1`
exists and is empty. -/
def sampleFS : FS :=
  { entries :=
      [("/".toList, .dir 4096), ("/tmp".toList, .dir 4096), ("/srv".toList, .dir 4096),
       ("/srv/data".toList, .dir 4096),
       ("/srv/users".toList, .dir 4096), ("/srv/users/alice".toList, .dir 4096),
       ("/srv/users/alice/projects".toList, .file "proj1\n".toList),
       ("/srv/users/bob".toList, .dir 4096),
       ("/srv/users/bob/projects".toList, .file "proj2".toList),
       ("/srv/users/mallory".toList, .dir 4096),
       ("/srv/users/mallory/projects".toList, .file "..\n".toList),
       ("/srv/data/proj1".toList, .dir 4096)],
    cwd := "/".toList,
    free := 1000,
    tempSeed := 0 }

/-- The world before any request: the sample filesystem and an empty log. -/
def sampleWorld : World := ⟨sampleFS, []⟩

/-- A request for `/{project}/{fname}` with the given `Authorization` header
(if any) and `source` form file (name and content, if any). -/
def mkRequest (project fname : Str) (authorization : Option Str)
    (source : Option (Str × Str)) : Request :=
  { params := [("project".toList, project), ("fname".toList, fname)],
    header := match authorization with
      | some h => [("Authorization".toList, h)]
      | none => [],
    files := match source with
      | some (name, content) => [("source".toList, (content, ⟨name⟩))]
      | none => [] }

/-! ## Lexical confinement of paths -/

/-- A segment that is one ordinary path element: not empty, without a
separator, and neither `.` nor `..`. -/
def plainSegment (s : Str) : Prop :=
  s ≠ [] ∧ '/' ∉ s ∧ s ≠ ['.'] ∧ s ≠ ['.', '.']

instance (s : Str) : Decidable (plainSegment s) := by
  unfold plainSegment; infer_instance

/-- The elements of a path: the pieces between separators, the empty ones and
`.` left out. -/
def pathElems (p : Str) : List Str :=
  (stringsSplit p '/').filter fun e => e ≠ [] ∧ e ≠ ['.']

/-- The path `p` lies lexically under `base`: both are rooted or both are not,
the elements of `base` begin those of `p`, and none of the remaining
elements of `p` is `..`. -/
def liesUnder (base p : Str) : Bool :=
  isRooted base == isRooted p &&
    (pathElems base).isPrefixOf (pathElems p) &&
    !((pathElems p).drop (pathElems base).length).contains ['.', '.']

/-- What the elements kept by `filepath.Clean` look like: not empty, without
a separator, and not `.`. -/
def goodElems (out : List Str) : Prop :=
  ∀ e ∈ out, e ≠ [] ∧ '/' ∉ e ∧ e ≠ ['.']

/-- A cleaned path extended by one element. -/
def extendPath (base elem : Str) : Str :=
  if base = ['/'] then '/' :: elem
  else if base = ['.'] then elem
  else base ++ '/' :: elem

/-- The directory under which the data of all projects is kept:
`filepath.Join(cfg.Root, cfg.DataDir)`. -/
def dataRoot (cfg : Config) : Str :=
  filepathJoin [cfg.Root, cfg.DataDir]

/-- The directory under which the permission lists are kept:
`filepath.Join(cfg.Root, cfg.UsersDir)`. -/
def usersRoot (cfg : Config) : Str :=
  filepathJoin [cfg.Root, cfg.UsersDir]

/-! ## Names that try to leave the tree -/

/-- Whether a name contains `..`. -/
def containsDotDot : Str → Bool
  | [] => false
  | [_] => false
  | a :: b :: cs => (a = '.' && b = '.') || containsDotDot (b :: cs)

/-- A name that contains `..` or begins with `/`. -/
def traversalName (name : Str) : Bool :=
  containsDotDot name || isRooted name

/-! ## A deployment that keeps users and data in one directory -/

/-- The files a listing reports: one per entry whose size lookup succeeds, in
the order of the entries. -/
def sizedEntries (files : List DirEntry) : List File :=
  files.filterMap fun e =>
    match e.stat with
    | .ok info => some ⟨e.name, info.size⟩
    | .error _ => none

/-- A JSON array of already encoded values. -/
def jsonArray (values : List Str) : Str :=
  '[' :: (stringsJoin values [','] ++ [']'])

/-- JSON white space. -/
def isJsonSpace (c : Char) : Bool :=
  c = ' ' || c = '\n' || c = '\r' || c = '\t'

/-- Whether a character is a hexadecimal digit. -/
def isHexDigit (c : Char) : Bool :=
  ('0'.toNat ≤ c.toNat && c.toNat ≤ '9'.toNat) ||
  ('a'.toNat ≤ c.toNat && c.toNat ≤ 'f'.toNat) ||
  ('A'.toNat ≤ c.toNat && c.toNat ≤ 'F'.toNat)

/-- Where the scanner of a JSON string stands: in plain text, after a
backslash, or inside a `\u` escape with so many digits to come. -/
inductive StringScan where
  | plain
  | escaped
  | hex (left : Nat)
  deriving DecidableEq, Repr

/-- Scan a JSON string from after its opening quote; gives what follows the
closing quote, or `none` when the string is not well formed. -/
def scanJsonString : StringScan → Str → Option Str
  | _, [] => none
  | .plain, c :: cs =>
    if c = '"' then some cs
    else if c = '\\' then scanJsonString .escaped cs
    else if c.toNat < 32 then none
    else scanJsonString .plain cs
  | .escaped, c :: cs =>
    if c = 'u' then scanJsonString (.hex 4) cs
    else if c ∈ ['"', '\\', '/', 'b', 'f', 'n', 'r', 't'] then scanJsonString .plain cs
    else none
  | .hex left, c :: cs =>
    if isHexDigit c then
      if left ≤ 1 then scanJsonString .plain cs else scanJsonString (.hex (left - 1)) cs
    else none

/-- Drop leading JSON white space. -/
def skipJsonSpace (s : Str) : Str :=
  s.dropWhile isJsonSpace

/-- Read the given text after optional white space. -/
def expectText (text s : Str) : Option Str :=
  if stringsHasPrefix (skipJsonSpace s) text then some ((skipJsonSpace s).drop text.length)
  else none

/-- Whether a body is a well-formed JSON object with the single key `error`
mapped to a string. -/
def isErrorObject (body : Str) : Bool :=
  match (expectText ['{'] body).bind (expectText "\"error\"".toList)
      |>.bind (expectText [':']) |>.bind (expectText ['"'])
      |>.bind (scanJsonString .plain) |>.bind (expectText ['}']) with
  | some rest => skipJsonSpace rest = []
  | none => false

/-- The sample filesystem with three names in the directory of `proj1`: a
file of five characters in six bytes, a directory, and a name whose size
lookup fails. -/
def listingFS : FS :=
  { sampleFS with
    entries := sampleFS.entries ++
      [("/srv/data/proj1/notes.txt".toList, .file "héllo".toList),
       ("/srv/data/proj1/gone".toList, .ghost),
       ("/srv/data/proj1/docs".toList, .dir 4096)] }

/-- The sample filesystem with two bytes of free space. -/
def fullFS : FS :=
  { sampleFS with free := 2 }

/-! ## The size of an upload -/

/-- The bytes of all file parts of a request together. -/
def partsSize : List (Str × (Str × FileHeader)) → Nat
  | [] => 0
  | part :: parts => byteLen part.2.1 + partsSize parts

/-- The file parts of the request fit in the memory the form parser keeps for
them, so none goes to a temporary file. -/
def Request.fitsInMemory (r : Request) : Prop :=
  partsSize r.files ≤ defaultMaxMemory

instance (r : Request) : Decidable r.fitsInMemory := by
  unfold Request.fitsInMemory; infer_instance

/-! ## An upload that does not fit in memory -/

/-- An upload of 32 MiB and one byte. -/
def bigUpload : Str := List.replicate 33554433 'a'

/-- The sample filesystem with room for the large upload. -/
def roomyFS : FS :=
  { sampleFS with free := 100000000 }

/-- The create request of `bob` for `proj1` with the large upload as `source`. -/
def bigUploadRequest : Request :=
  mkRequest "proj1".toList [] (some "Token bob".toList) (some ("big.bin".toList, bigUpload))

/-- The name of the first temporary file. -/
def firstTemp : Str := "/tmp/multipart-0".toList

/-! ## Reading a listing back -/

/-- The value of a hexadecimal digit. -/
def hexValue (c : Char) : Option Nat :=
  if '0'.toNat ≤ c.toNat ∧ c.toNat ≤ '9'.toNat then some (c.toNat - '0'.toNat)
  else if 'a'.toNat ≤ c.toNat ∧ c.toNat ≤ 'f'.toNat then some (c.toNat - 'a'.toNat + 10)
  else if 'A'.toNat ≤ c.toNat ∧ c.toNat ≤ 'F'.toNat then some (c.toNat - 'A'.toNat + 10)
  else none

/-- Where the reader of a JSON string stands: in plain text, after a
backslash, or inside a `\u` escape with so many digits to come and the value
read so far. -/
inductive StringRead where
  | plain
  | escaped
  | hex (left : Nat) (value : Nat)
  deriving DecidableEq, Repr

/-- Read a JSON string from after its opening quote: the characters it stands
for (collected in `acc`, last first) and what follows the closing quote;
`none` when the string is not well formed. -/
def readJsonString : StringRead → Str → Str → Option (Str × Str)
  | _, _, [] => none
  | .plain, acc, c :: cs =>
    if c = '"' then some (acc.reverse, cs)
    else if c = '\\' then readJsonString .escaped acc cs
    else if c.toNat < 32 then none
    else readJsonString .plain (c :: acc) cs
  | .escaped, acc, c :: cs =>
    if c = 'u' then readJsonString (.hex 4 0) acc cs
    else if c = '"' then readJsonString .plain ('"' :: acc) cs
    else if c = '\\' then readJsonString .plain ('\\' :: acc) cs
    else if c = '/' then readJsonString .plain ('/' :: acc) cs
    else if c = 'b' then readJsonString .plain ('\x08' :: acc) cs
    else if c = 'f' then readJsonString .plain ('\x0c' :: acc) cs
    else if c = 'n' then readJsonString .plain ('\n' :: acc) cs
    else if c = 'r' then readJsonString .plain ('\r' :: acc) cs
    else if c = 't' then readJsonString .plain ('\t' :: acc) cs
    else none
  | .hex left value, acc, c :: cs =>
    match hexValue c with
    | none => none
    | some d =>
      if left ≤ 1 then readJsonString .plain (Char.ofNat (16 * value + d) :: acc) cs
      else readJsonString (.hex (left - 1) (16 * value + d)) acc cs

/-- The value of a run of digits read after the value `v`. -/
def digitsValue (v : Nat) (ds : Str) : Nat :=
  ds.foldl (fun v c => 10 * v + (c.toNat - '0'.toNat)) v

/-- Read the decimal digits at the head of a string, continuing the value `v`. -/
def readDigits : Nat → Str → Nat × Str
  | v, [] => (v, [])
  | v, c :: cs =>
    if c.isDigit then readDigits (10 * v + (c.toNat - '0'.toNat)) cs else (v, c :: cs)

/-- Read a JSON number that is a natural number: digits, without a leading
zero unless it is `0`. -/
def readJsonNat : Str → Option (Nat × Str)
  | [] => none
  | c :: cs =>
    if c.isDigit then
      if c = '0' ∧ (cs.head?.map Char.isDigit) = some true then none
      else some (readDigits 0 (c :: cs))
    else none

/-- Read exactly the given text. -/
def expectExact (text s : Str) : Option Str :=
  if stringsHasPrefix s text then some (s.drop text.length) else none

/-- Read one object with the members `name` (a string) and `bytes` (a
number), in that order and without white space. -/
def readJsonFile (s : Str) : Option (File × Str) :=
  (expectExact "\x7b\"name\":\"".toList s).bind fun s1 =>
  (readJsonString .plain [] s1).bind fun r1 =>
  (expectExact ",\"bytes\":".toList r1.2).bind fun s3 =>
  (readJsonNat s3).bind fun r2 =>
  (expectExact "\x7d".toList r2.2).map fun s5 => (⟨r1.1, r2.1⟩, s5)

/-- Read objects separated by commas up to the closing bracket; `fuel` bounds
their number. -/
def readJsonFiles : Nat → Str → Option (List File × Str)
  | 0, _ => none
  | fuel + 1, s =>
    match readJsonFile s with
    | none => none
    | some (f, rest) =>
      match rest with
      | ',' :: rest1 => (readJsonFiles fuel rest1).map fun r => (f :: r.1, r.2)
      | ']' :: rest1 => some ([f], rest1)
      | _ => none

/-- Read a whole body as a JSON array of such objects: the files it lists, or
`none` when the body is not such an array. -/
def readListing (body : Str) : Option (List File) :=
  match body with
  | '[' :: rest =>
    if rest = [']'] then some []
    else
      match readJsonFiles rest.length rest with
      | some (files, []) => some files
      | _ => none
  | _ => none

/-! ## Segments that never climb -/

/-- Go over path elements from left to right, `depth` being the number of
elements that a `..` can still remove: empty elements and `.` are passed
over, `..` needs an element to remove, any other element adds one. -/
def neverClimbs : Nat → List Str → Bool
  | _, [] => true
  | depth, e :: es =>
    if e = [] ∨ e = ['.'] then neverClimbs depth es
    else if e = ['.', '.'] then decide (0 < depth) && neverClimbs (depth - 1) es
    else neverClimbs (depth + 1) es

/-- The path elements of a list of segments. -/
def segmentElems (segments : List Str) : List Str :=
  segments.flatMap fun s => stringsSplit s '/'

/-- The segments, read as one relative path, never climb above their start:
every `..` among their elements follows an element it removes. -/
def staysBelow (segments : List Str) : Bool :=
  neverClimbs 0 (segmentElems segments)

/-- A directory name longer than all the segments together. -/
def longName (segments : List Str) : Str :=
  List.replicate ((segments.map List.length).sum + 1) 'x'

/-- A configuration whose root is a directory with a name none of the
segments contains. -/
def farConfig (segments : List Str) : Config :=
  ⟨'/' :: longName segments, [], []⟩

/-! ## Lemmas on strings -/

theorem stringsHasPrefix_iff (s pre : Str) :
    stringsHasPrefix s pre = true ↔ ∃ rest, s = pre ++ rest := by
  induction pre generalizing s with
  | nil => simp [stringsHasPrefix]
  | cons p ps ih =>
    cases s with
    | nil => simp [stringsHasPrefix]
    | cons c cs =>
      simp only [stringsHasPrefix, Bool.and_eq_true, decide_eq_true_eq, ih, List.cons_append,
        List.cons.injEq]
      constructor
      · rintro ⟨rfl, rest, rfl⟩
        exact ⟨rest, rfl, rfl⟩
      · rintro ⟨rest, rfl, rfl⟩
        exact ⟨rfl, rest, rfl⟩

theorem stringsCutPrefix_append (pre rest : Str) :
    stringsCutPrefix (pre ++ rest) pre = (rest, true) := by
  have h : stringsHasPrefix (pre ++ rest) pre = true :=
    (stringsHasPrefix_iff _ _).2 ⟨rest, rfl⟩
  simp [stringsCutPrefix, h]

theorem stringsCutPrefix_found (s pre : Str) :
    (stringsCutPrefix s pre).2 = true ↔ ∃ rest, s = pre ++ rest := by
  rw [← stringsHasPrefix_iff]
  unfold stringsCutPrefix
  split <;> simp_all

theorem stringsCutPrefix_not_found (s pre : Str) (h : ¬ ∃ rest, s = pre ++ rest) :
    stringsCutPrefix s pre = (s, false) := by
  rw [← stringsHasPrefix_iff] at h
  simp [stringsCutPrefix, h]

theorem foldl_found_iff (project : Str) (permissions : List Str) (init : Bool) :
    permissions.foldl (fun found permission => if permission = project then true else found) init
      = true ↔ init = true ∨ project ∈ permissions := by
  induction permissions generalizing init with
  | nil => simp
  | cons p ps ih =>
    simp only [List.foldl_cons, ih, List.mem_cons]
    by_cases hp : p = project
    · simp [hp]
    · have hp2 : ¬ project = p := fun h => hp h.symm
      simp [hp, hp2]

/-! ## Lemmas on `hasPermissions` -/

theorem hasPermissions_world (user project path : Str) (w : World) :
    (hasPermissions user project path w).1 = { w with log := w.log ++ [.readFile path] } := by
  unfold hasPermissions osReadFile
  cases w.fs.readFile path with
  | error e => rfl
  | ok data =>
    simp only []
    split <;> rfl

theorem hasPermissions_none_iff (user project path : Str) (w : World) :
    (hasPermissions user project path w).2 = none ↔
      ∃ data, w.fs.readFile path = .ok data ∧ project ∈ stringsSplit data '\n' := by
  unfold hasPermissions osReadFile
  cases hr : w.fs.readFile path with
  | error e => simp
  | ok data =>
    simp only []
    have hf := foldl_found_iff project (stringsSplit data '\n') false
    split
    · rename_i hnot
      simp only [Bool.not_eq_true', Bool.false_eq_true, false_or] at hnot hf
      have : ¬ project ∈ stringsSplit data '\n' := by
        intro hm
        rw [hf.2 hm] at hnot
        exact Bool.noConfusion hnot
      simp [this]
    · rename_i hyes
      simp only [Bool.not_eq_true', Bool.not_eq_false] at hyes
      simp only [Bool.false_eq_true, false_or] at hf
      simp [hf.1 hyes]

/-! ## The handlers, branch by branch -/

theorem httpError_fresh_status (msg : Str) (code : Nat) :
    (httpError .fresh msg code).status = code := rfl

theorem httpError_fresh_body (msg : Str) (code : Nat) :
    (httpError .fresh msg code).body = msg ++ ['\n'] := rfl

theorem getFileList_unauthorized (cfg : Config) (rw : ResponseWriter) (r : Request) (w : World)
    (ha : ¬ ∃ rest, r.HeaderGet "Authorization".toList = tokenPrefix ++ rest) :
    getFileList cfg rw r w =
      (httpError rw "\x7b\"error\": \"Unauthorized\"\x7d".toList StatusUnauthorized, w) := by
  unfold getFileList
  rw [show "Token ".toList = tokenPrefix from rfl, stringsCutPrefix_not_found _ _ ha]

theorem getFileList_forbidden (cfg : Config) (rw : ResponseWriter) (r : Request) (w : World)
    (user : Str) (ha : r.HeaderGet "Authorization".toList = tokenPrefix ++ user)
    (hp : (hasPermissions user (r.ByName "project".toList) (permissionsPath cfg user) w).2 ≠ none) :
    getFileList cfg rw r w =
      (httpError rw "\x7b\"error\": \"forbidden\"\x7d".toList StatusForbidden,
        { w with log := w.log ++ [.readFile (permissionsPath cfg user)] }) := by
  unfold getFileList
  rw [show "Token ".toList = tokenPrefix from rfl, ha, stringsCutPrefix_append]
  simp only []
  have hw := hasPermissions_world user (r.ByName "project".toList) (permissionsPath cfg user) w
  unfold permissionsPath at hp hw
  generalize hasPermissions user (r.ByName "project".toList)
    (filepathJoin [cfg.Root, cfg.UsersDir, user, "projects".toList]) w = res at hp hw
  obtain ⟨w1, e⟩ := res
  cases e with
  | none => exact absurd rfl hp
  | some e => simp only [] at hw ⊢; rw [hw]; rfl

theorem getFile_unauthorized (cfg : Config) (rw : ResponseWriter) (r : Request) (w : World)
    (ha : ¬ ∃ rest, r.HeaderGet "Authorization".toList = tokenPrefix ++ rest) :
    getFile cfg rw r w =
      (httpError rw "\x7b\"error\": \"Unauthorized\"\x7d".toList StatusUnauthorized, w) := by
  unfold getFile
  rw [show "Token ".toList = tokenPrefix from rfl, stringsCutPrefix_not_found _ _ ha]

theorem getFile_forbidden (cfg : Config) (rw : ResponseWriter) (r : Request) (w : World)
    (user : Str) (ha : r.HeaderGet "Authorization".toList = tokenPrefix ++ user)
    (hp : (hasPermissions user (r.ByName "project".toList) (permissionsPath cfg user) w).2 ≠ none) :
    getFile cfg rw r w =
      (httpError rw "\x7b\"error\": \"forbidden\"\x7d".toList StatusForbidden,
        { w with log := w.log ++ [.readFile (permissionsPath cfg user)] }) := by
  unfold getFile
  rw [show "Token ".toList = tokenPrefix from rfl, ha, stringsCutPrefix_append]
  simp only []
  have hw := hasPermissions_world user (r.ByName "project".toList) (permissionsPath cfg user) w
  unfold permissionsPath at hp hw
  generalize hasPermissions user (r.ByName "project".toList)
    (filepathJoin [cfg.Root, cfg.UsersDir, user, "projects".toList]) w = res at hp hw
  obtain ⟨w1, e⟩ := res
  cases e with
  | none => exact absurd rfl hp
  | some e => simp only [] at hw ⊢; rw [hw]; rfl

theorem getFileList_authorized (cfg : Config) (rw : ResponseWriter) (r : Request) (w : World)
    (user : Str) (ha : r.HeaderGet "Authorization".toList = tokenPrefix ++ user)
    (hp : (hasPermissions user (r.ByName "project".toList) (permissionsPath cfg user) w).2 = none) :
    getFileList cfg rw r w =
      match osReadDir (projectPath cfg (r.ByName "project".toList))
          { w with log := w.log ++ [.readFile (permissionsPath cfg user)] } with
      | (w2, .error _) =>
        (httpError rw "\x7b\"error\": \"failed to list projects\"\x7d".toList
          StatusInternalServerError, w2)
      | (w2, .ok files) =>
        match collectFiles (projectPath cfg (r.ByName "project".toList)) files (some []) w2 with
        | (fileNames, w3) =>
          match jsonMarshal fileNames with
          | .error _ =>
            (httpError rw "\x7b\"error\": \"Failed to produce output\"\x7d".toList
              StatusInternalServerError, w3)
          | .ok output =>
            match rw.Write output with
            | (rw1, some _) =>
              (httpError rw1 "\x7b\"error\": \"server error\"\x7d".toList
                StatusInternalServerError, w3)
            | (rw1, none) => (rw1, w3) := by
  unfold getFileList
  rw [show "Token ".toList = tokenPrefix from rfl, ha, stringsCutPrefix_append]
  simp only []
  have hw := hasPermissions_world user (r.ByName "project".toList) (permissionsPath cfg user) w
  unfold permissionsPath at hp hw
  unfold projectPath permissionsPath
  generalize hasPermissions user (r.ByName "project".toList)
    (filepathJoin [cfg.Root, cfg.UsersDir, user, "projects".toList]) w = res at hp hw
  obtain ⟨w1, e⟩ := res
  simp only [] at hp hw
  subst hp hw
  rfl

theorem getFile_authorized (cfg : Config) (rw : ResponseWriter) (r : Request) (w : World)
    (user : Str) (ha : r.HeaderGet "Authorization".toList = tokenPrefix ++ user)
    (hp : (hasPermissions user (r.ByName "project".toList) (permissionsPath cfg user) w).2 = none) :
    getFile cfg rw r w =
      match osReadFile (contentPath cfg (r.ByName "project".toList) (r.ByName "fname".toList))
          { w with log := w.log ++ [.readFile (permissionsPath cfg user)] } with
      | (w2, .error _) =>
        (httpError rw "\x7b\"error\": \"failed to retrieve file\"\x7d".toList
          StatusInternalServerError, w2)
      | (w2, .ok data) =>
        match rw.Write data with
        | (rw1, some _) =>
          (httpError rw1 "\x7b\"error\": \"server error\"\x7d".toList
            StatusInternalServerError, w2)
        | (rw1, none) => (rw1, w2) := by
  unfold getFile
  rw [show "Token ".toList = tokenPrefix from rfl, ha, stringsCutPrefix_append]
  simp only []
  have hw := hasPermissions_world user (r.ByName "project".toList) (permissionsPath cfg user) w
  unfold permissionsPath at hp hw
  unfold contentPath permissionsPath
  generalize hasPermissions user (r.ByName "project".toList)
    (filepathJoin [cfg.Root, cfg.UsersDir, user, "projects".toList]) w = res at hp hw
  obtain ⟨w1, e⟩ := res
  simp only [] at hp hw
  subst hp hw
  rfl

/-- The loop over the directory entries leaves the filesystem alone and makes
one size lookup per entry. -/
theorem collectFiles_world (dir : Str) (files : List DirEntry) (acc : Option (List File))
    (w : World) :
    (collectFiles dir files acc w).2 =
      { w with log := w.log ++ files.map fun e => .lstat (dir ++ '/' :: e.name) } := by
  induction files generalizing acc w with
  | nil => simp [collectFiles]
  | cons f fs ih =>
    unfold collectFiles DirEntry.Info
    cases f.stat with
    | error e => simp only [ih, List.map_cons, List.append_assoc, List.singleton_append]
    | ok info => simp only [ih, List.map_cons, List.append_assoc, List.singleton_append]

/-- What the loop over the directory entries collects: the entries whose size
lookup succeeds, in order, after what was collected before. -/
theorem collectFiles_files (dir : Str) (files : List DirEntry) (acc : List File) (w : World) :
    (collectFiles dir files (some acc) w).1 =
      some (acc ++ files.filterMap fun e =>
        match e.stat with
        | .ok info => some ⟨e.name, info.size⟩
        | .error _ => none) := by
  induction files generalizing acc w with
  | nil => simp [collectFiles]
  | cons f fs ih =>
    unfold collectFiles DirEntry.Info
    cases hs : f.stat with
    | error e => simp only [ih, List.filterMap_cons, hs]
    | ok info =>
      simp only [goAppend, Option.getD_some, ih, List.filterMap_cons, hs, List.append_assoc,
        List.singleton_append]

theorem createFile_no_source (cfg : Config) (rw : ResponseWriter) (r : Request) (w : World)
    (h : (r.FormFile "source".toList w).2 = none) :
    createFile cfg rw r w =
      (httpError rw "\x7b\"error\": \"failed to get source file\"\x7d".toList StatusBadRequest,
        (r.FormFile "source".toList w).1) := by
  unfold createFile
  cases hff : r.FormFile "source".toList w with
  | mk w0 res =>
    rw [hff] at h
    simp only [] at h
    subst h
    rfl

theorem createFile_unauthorized (cfg : Config) (rw : ResponseWriter) (r : Request) (w : World)
    (up : Str × FileHeader) (h : (r.FormFile "source".toList w).2 = some up)
    (ha : ¬ ∃ rest, r.HeaderGet "Authorization".toList = tokenPrefix ++ rest) :
    createFile cfg rw r w =
      (httpError rw "\x7b\"error\": \"Unauthorized\"\x7d".toList StatusUnauthorized,
        (r.FormFile "source".toList w).1) := by
  unfold createFile
  obtain ⟨file, header⟩ := up
  cases hff : r.FormFile "source".toList w with
  | mk w0 res =>
    rw [hff] at h
    simp only [] at h
    subst h
    simp only []
    rw [show "Token ".toList = tokenPrefix from rfl, stringsCutPrefix_not_found _ _ ha]

theorem createFile_forbidden (cfg : Config) (rw : ResponseWriter) (r : Request) (w : World)
    (up : Str × FileHeader) (user : Str) (h : (r.FormFile "source".toList w).2 = some up)
    (ha : r.HeaderGet "Authorization".toList = tokenPrefix ++ user)
    (hp : (hasPermissions user (r.ByName "project".toList) (permissionsPath cfg user)
      (r.FormFile "source".toList w).1).2 ≠ none) :
    createFile cfg rw r w =
      (httpError rw "\x7b\"error\": \"forbidden\"\x7d".toList StatusForbidden,
        { (r.FormFile "source".toList w).1 with
          log := (r.FormFile "source".toList w).1.log ++
            [.readFile (permissionsPath cfg user)] }) := by
  unfold createFile
  obtain ⟨file, header⟩ := up
  cases hff : r.FormFile "source".toList w with
  | mk w0 res =>
    rw [hff] at h hp
    simp only [] at h hp
    subst h
    simp only []
    rw [show "Token ".toList = tokenPrefix from rfl, ha, stringsCutPrefix_append]
    simp only []
    have hw := hasPermissions_world user (r.ByName "project".toList) (permissionsPath cfg user) w0
    unfold permissionsPath at hp hw
    generalize hasPermissions user (r.ByName "project".toList)
      (filepathJoin [cfg.Root, cfg.UsersDir, user, "projects".toList]) w0 = res at hp hw
    obtain ⟨w1, e⟩ := res
    cases e with
    | none => exact absurd rfl hp
    | some e => simp only [] at hw ⊢; rw [hw]; rfl

theorem createFile_authorized (cfg : Config) (rw : ResponseWriter) (r : Request) (w : World)
    (file : Str) (header : FileHeader) (user : Str)
    (h : (r.FormFile "source".toList w).2 = some (file, header))
    (ha : r.HeaderGet "Authorization".toList = tokenPrefix ++ user)
    (hp : (hasPermissions user (r.ByName "project".toList) (permissionsPath cfg user)
      (r.FormFile "source".toList w).1).2 = none) :
    createFile cfg rw r w =
      match osCreate (contentPath cfg (r.ByName "project".toList) header.Filename)
          { (r.FormFile "source".toList w).1 with
            log := (r.FormFile "source".toList w).1.log ++
              [.readFile (permissionsPath cfg user)] } with
      | (w2, .error _) =>
        (httpError rw "\x7b\"error\": \"failed to create file\"\x7d".toList
          StatusInternalServerError, w2)
      | (w2, .ok dst) =>
        match dst.ReadFrom file w2 with
        | (w3, some _) =>
          (httpError rw "\x7b\"error\", \"failed to write file\"\x7d".toList
            StatusInternalServerError, w3)
        | (w3, none) => (rw, w3) := by
  unfold createFile
  cases hff : r.FormFile "source".toList w with
  | mk w0 res =>
    rw [hff] at h hp
    simp only [] at h hp
    subst h
    simp only []
    rw [show "Token ".toList = tokenPrefix from rfl, ha, stringsCutPrefix_append]
    simp only []
    have hw := hasPermissions_world user (r.ByName "project".toList) (permissionsPath cfg user) w0
    unfold permissionsPath at hp hw
    unfold contentPath permissionsPath
    generalize hasPermissions user (r.ByName "project".toList)
      (filepathJoin [cfg.Root, cfg.UsersDir, user, "projects".toList]) w0 = res at hp hw
    obtain ⟨w1, e⟩ := res
    simp only [] at hp hw
    subst hp hw
    rfl

/-! ## Lemmas on the filesystem -/

theorem byteLen_replicate (n : Nat) (c : Char) :
    byteLen (List.replicate n c) = n * c.utf8Size := by
  induction n with
  | zero => simp [byteLen]
  | succ k ih =>
    rw [List.replicate_succ, byteLen, ih]
    ring

theorem takeBytes_all (n : Nat) (s : Str) (h : byteLen s ≤ n) : takeBytes n s = s := by
  induction s generalizing n with
  | nil => rfl
  | cons c cs ih =>
    simp only [byteLen] at h
    have h1 : c.utf8Size ≤ n := by omega
    rw [takeBytes, if_pos h1, ih (n - c.utf8Size) (by omega)]

theorem FS.readFrom_fits (fs : FS) (dst : OsFile) (src : Str) (h : byteLen src ≤ fs.free) :
    (fs.readFrom dst src).2 = none := by
  unfold FS.readFrom
  have hmin : min (byteLen src) fs.free = byteLen src := by omega
  simp [hmin]

theorem lookupNode_setNode (entries : List (Str × Node)) (key q : Str) (v : Node) :
    lookupNode (setNode key v entries) q = if q = key then some v else lookupNode entries q := by
  induction entries with
  | nil =>
    by_cases h : q = key
    · simp [setNode, lookupNode, h]
    · have h2 : ¬ key = q := fun e => h e.symm
      simp [setNode, lookupNode, h, h2]
  | cons e rest ih =>
    obtain ⟨k, n⟩ := e
    by_cases hk : k = key
    · subst hk
      by_cases h : q = k
      · simp [setNode, lookupNode, h]
      · have h2 : ¬ k = q := fun e => h e.symm
        simp [setNode, lookupNode, h, h2]
    · by_cases h : q = key
      · subst h
        simp [setNode, lookupNode, hk, ih]
      · by_cases hq : k = q
        · simp [setNode, lookupNode, hk, hq, h]
        · simp [setNode, lookupNode, hk, hq, h, ih]

/-- The result of `os.ReadFile` depends on the working directory and on the
node under the resolved path only. -/
theorem FS.readFile_congr (fs1 fs2 : FS) (path : Str) (hc : fs1.cwd = fs2.cwd)
    (hl : lookupNode fs1.entries (fs2.resolve path) = lookupNode fs2.entries (fs2.resolve path)) :
    fs1.readFile path = fs2.readFile path := by
  have hr : fs1.resolve path = fs2.resolve path := by
    unfold FS.resolve; rw [hc]
  unfold FS.readFile
  rw [hr, hl]

theorem hasPermissions_congr (user project path : Str) (w1 w2 : World)
    (h : w1.fs.readFile path = w2.fs.readFile path) :
    (hasPermissions user project path w1).2 = (hasPermissions user project path w2).2 := by
  unfold hasPermissions osReadFile
  rw [h]
  cases w2.fs.readFile path with
  | error e => rfl
  | ok data =>
    simp only []
    split <;> rfl

/-! ## The outcomes of a request that carries a token -/

/-- The three outcomes of `getFileList` for a request with a token. -/
theorem getFileList_outcomes (cfg : Config) (r : Request) (w : World) (user : Str)
    (ha : r.HeaderGet "Authorization".toList = tokenPrefix ++ user) :
    ((hasPermissions user (r.ByName "project".toList) (permissionsPath cfg user) w).2 ≠ none ∧
      getFileList cfg .fresh r w =
        (httpError .fresh "\x7b\"error\": \"forbidden\"\x7d".toList StatusForbidden,
          { w with log := w.log ++ [.readFile (permissionsPath cfg user)] })) ∨
    ((hasPermissions user (r.ByName "project".toList) (permissionsPath cfg user) w).2 = none ∧
      (∃ e, w.fs.readDir (projectPath cfg (r.ByName "project".toList)) = .error e) ∧
      getFileList cfg .fresh r w =
        (httpError .fresh "\x7b\"error\": \"failed to list projects\"\x7d".toList
          StatusInternalServerError,
          { w with log := w.log ++ [.readFile (permissionsPath cfg user),
              .readDir (projectPath cfg (r.ByName "project".toList))] })) ∨
    ((hasPermissions user (r.ByName "project".toList) (permissionsPath cfg user) w).2 = none ∧
      ∃ files, w.fs.readDir (projectPath cfg (r.ByName "project".toList)) = .ok files ∧
      getFileList cfg .fresh r w =
        (⟨some 200, '[' :: (stringsJoin ((files.filterMap fun e =>
            match e.stat with
            | .ok info => some (⟨e.name, info.size⟩ : File)
            | .error _ => none).map jsonFile) [','] ++ [']'])⟩,
          { w with log := w.log ++ [.readFile (permissionsPath cfg user),
              .readDir (projectPath cfg (r.ByName "project".toList))] ++
              files.map fun e =>
                .lstat (projectPath cfg (r.ByName "project".toList) ++ '/' :: e.name) })) := by
  cases hp : (hasPermissions user (r.ByName "project".toList) (permissionsPath cfg user) w).2 with
  | some e =>
    left
    exact ⟨by simp, getFileList_forbidden cfg _ r w user ha (by rw [hp]; simp)⟩
  | none =>
    right
    rw [getFileList_authorized cfg _ r w user ha hp]
    unfold osReadDir
    cases hd : w.fs.readDir (projectPath cfg (r.ByName "project".toList)) with
    | error e =>
      left
      exact ⟨rfl, ⟨e, rfl⟩, by simp⟩
    | ok files =>
      right
      refine ⟨rfl, files, rfl, ?_⟩
      simp only []
      have hw := collectFiles_world (projectPath cfg (r.ByName "project".toList)) files
        (some []) { fs := w.fs, log := (w.log ++ [FsCall.readFile (permissionsPath cfg user)]) ++
          [FsCall.readDir (projectPath cfg (r.ByName "project".toList))] }
      have hf := collectFiles_files (projectPath cfg (r.ByName "project".toList)) files
        [] { fs := w.fs, log := (w.log ++ [FsCall.readFile (permissionsPath cfg user)]) ++
          [FsCall.readDir (projectPath cfg (r.ByName "project".toList))] }
      generalize collectFiles (projectPath cfg (r.ByName "project".toList)) files
        (some []) _ = res at hw hf
      obtain ⟨names, w3⟩ := res
      simp only [] at hw hf
      subst hw hf
      simp [jsonMarshal, ResponseWriter.Write, ResponseWriter.WriteHeader, ResponseWriter.fresh]

/-- The three outcomes of `getFile` for a request with a token. -/
theorem getFile_outcomes (cfg : Config) (r : Request) (w : World) (user : Str)
    (ha : r.HeaderGet "Authorization".toList = tokenPrefix ++ user) :
    ((hasPermissions user (r.ByName "project".toList) (permissionsPath cfg user) w).2 ≠ none ∧
      getFile cfg .fresh r w =
        (httpError .fresh "\x7b\"error\": \"forbidden\"\x7d".toList StatusForbidden,
          { w with log := w.log ++ [.readFile (permissionsPath cfg user)] })) ∨
    ((hasPermissions user (r.ByName "project".toList) (permissionsPath cfg user) w).2 = none ∧
      (∃ e, w.fs.readFile (contentPath cfg (r.ByName "project".toList)
        (r.ByName "fname".toList)) = .error e) ∧
      getFile cfg .fresh r w =
        (httpError .fresh "\x7b\"error\": \"failed to retrieve file\"\x7d".toList
          StatusInternalServerError,
          { w with log := w.log ++ [.readFile (permissionsPath cfg user),
              .readFile (contentPath cfg (r.ByName "project".toList)
                (r.ByName "fname".toList))] })) ∨
    ((hasPermissions user (r.ByName "project".toList) (permissionsPath cfg user) w).2 = none ∧
      ∃ data, w.fs.readFile (contentPath cfg (r.ByName "project".toList)
        (r.ByName "fname".toList)) = .ok data ∧
      getFile cfg .fresh r w =
        (⟨some 200, data⟩,
          { w with log := w.log ++ [.readFile (permissionsPath cfg user),
              .readFile (contentPath cfg (r.ByName "project".toList)
                (r.ByName "fname".toList))] })) := by
  cases hp : (hasPermissions user (r.ByName "project".toList) (permissionsPath cfg user) w).2 with
  | some e =>
    left
    exact ⟨by simp, getFile_forbidden cfg _ r w user ha (by rw [hp]; simp)⟩
  | none =>
    right
    rw [getFile_authorized cfg _ r w user ha hp]
    unfold osReadFile
    cases hd : w.fs.readFile (contentPath cfg (r.ByName "project".toList)
      (r.ByName "fname".toList)) with
    | error e =>
      left
      exact ⟨rfl, ⟨e, rfl⟩, by simp⟩
    | ok data =>
      right
      refine ⟨rfl, data, rfl, ?_⟩
      simp [ResponseWriter.Write, ResponseWriter.WriteHeader, ResponseWriter.fresh]

/-- The four outcomes of `createFile` for a request with a source file and a
token; `w0` is the world the parsing of the form leaves. -/
theorem createFile_outcomes (cfg : Config) (r : Request) (w w0 : World) (user file : Str)
    (header : FileHeader) (h : r.FormFile "source".toList w = (w0, some (file, header)))
    (ha : r.HeaderGet "Authorization".toList = tokenPrefix ++ user) :
    ((hasPermissions user (r.ByName "project".toList) (permissionsPath cfg user) w0).2 ≠ none ∧
      createFile cfg .fresh r w =
        (httpError .fresh "\x7b\"error\": \"forbidden\"\x7d".toList StatusForbidden,
          { w0 with log := w0.log ++ [.readFile (permissionsPath cfg user)] })) ∨
    ((hasPermissions user (r.ByName "project".toList) (permissionsPath cfg user) w0).2 = none ∧
      (∃ e, (w0.fs.create (contentPath cfg (r.ByName "project".toList) header.Filename)).2
        = .error e) ∧
      createFile cfg .fresh r w =
        (httpError .fresh "\x7b\"error\": \"failed to create file\"\x7d".toList
          StatusInternalServerError,
          ⟨(w0.fs.create (contentPath cfg (r.ByName "project".toList) header.Filename)).1,
            w0.log ++ [.readFile (permissionsPath cfg user),
              .create (contentPath cfg (r.ByName "project".toList) header.Filename)]⟩)) ∨
    ((hasPermissions user (r.ByName "project".toList) (permissionsPath cfg user) w0).2 = none ∧
      ∃ dst, (w0.fs.create (contentPath cfg (r.ByName "project".toList) header.Filename)).2
        = .ok dst ∧
      ((w0.fs.create (contentPath cfg (r.ByName "project".toList) header.Filename)).1.readFrom
        dst file).2 ≠ none ∧
      createFile cfg .fresh r w =
        (httpError .fresh "\x7b\"error\", \"failed to write file\"\x7d".toList
          StatusInternalServerError,
          ⟨((w0.fs.create (contentPath cfg (r.ByName "project".toList) header.Filename)).1.readFrom
            dst file).1,
            w0.log ++ [.readFile (permissionsPath cfg user),
              .create (contentPath cfg (r.ByName "project".toList) header.Filename),
              .write dst.name]⟩)) ∨
    ((hasPermissions user (r.ByName "project".toList) (permissionsPath cfg user) w0).2 = none ∧
      ∃ dst, (w0.fs.create (contentPath cfg (r.ByName "project".toList) header.Filename)).2
        = .ok dst ∧
      ((w0.fs.create (contentPath cfg (r.ByName "project".toList) header.Filename)).1.readFrom
        dst file).2 = none ∧
      createFile cfg .fresh r w =
        (.fresh,
          ⟨((w0.fs.create (contentPath cfg (r.ByName "project".toList) header.Filename)).1.readFrom
            dst file).1,
            w0.log ++ [.readFile (permissionsPath cfg user),
              .create (contentPath cfg (r.ByName "project".toList) header.Filename),
              .write dst.name]⟩)) := by
  have h1 : (r.FormFile "source".toList w).1 = w0 := by rw [h]
  have h2 : (r.FormFile "source".toList w).2 = some (file, header) := by rw [h]
  cases hp : (hasPermissions user (r.ByName "project".toList) (permissionsPath cfg user) w0).2 with
  | some e =>
    left
    refine ⟨by simp, ?_⟩
    rw [createFile_forbidden cfg _ r w _ user h2 ha (by rw [h1, hp]; simp), h1]
  | none =>
    right
    rw [createFile_authorized cfg _ r w file header user h2 ha (by rw [h1, hp]), h1]
    unfold osCreate
    generalize w0.fs.create (contentPath cfg (r.ByName "project".toList) header.Filename) = res
    obtain ⟨fs2, res2⟩ := res
    cases res2 with
    | error e =>
      left
      exact ⟨rfl, ⟨e, rfl⟩, by simp⟩
    | ok dst =>
      right
      simp only [OsFile.ReadFrom]
      cases h3 : fs2.readFrom dst file with
      | mk fs3 e3 =>
        cases e3 with
        | some e =>
          left
          exact ⟨trivial, dst, rfl, by simp [h3], by simp [h3]⟩
        | none =>
          right
          exact ⟨trivial, dst, rfl, by simp [h3], by simp [h3]⟩

/-! ## Parsing the form -/

theorem assocGet_map_part (parts : List (Str × (Str × FileHeader))) (key : Str) :
    assocGet (parts.map fun p => (p.1, (⟨p.2.1, p.2.2, none⟩ : FormFilePart))) key =
      (assocGet parts key).map fun v => ⟨v.1, v.2, none⟩ := by
  induction parts with
  | nil => rfl
  | cons p rest ih =>
    obtain ⟨k, v⟩ := p
    by_cases hk : k = key
    · simp [assocGet, hk]
    · simp [assocGet, hk, ih]

/-- File parts that fit in the budget stay in memory: the parsing does not
touch the world. -/
theorem readFormParts_fits (parts : List (Str × (Str × FileHeader))) (budget : Nat)
    (file : Option OsFile) (w : World) (h : partsSize parts ≤ budget) :
    readFormParts parts budget file w =
      (w, .ok (parts.map fun p => (p.1, (⟨p.2.1, p.2.2, none⟩ : FormFilePart)))) := by
  induction parts generalizing budget with
  | nil => rfl
  | cons p rest ih =>
    obtain ⟨name, content, header⟩ := p
    simp only [partsSize] at h
    have h1 : ¬ byteLen content > budget := by omega
    have h2 : partsSize rest ≤ budget - byteLen content := by omega
    unfold readFormParts
    rw [if_neg h1, ih _ h2]
    rfl

/-- When the file parts fit in memory `r.FormFile` is a lookup among them and
leaves the world as it is. -/
theorem FormFile_fits (r : Request) (key : Str) (w : World) (h : r.fitsInMemory) :
    r.FormFile key w = (w, assocGet r.files key) := by
  unfold Request.FormFile Request.ParseMultipartForm
  rw [readFormParts_fits r.files _ none w h]
  simp only [assocGet_map_part]
  cases assocGet r.files key with
  | none => rfl
  | some v => rfl

/-- C1: for every identity, project, path and filesystem state,
`hasPermissions` returns no error exactly when the file at the path is
readable and its content, split on the newline character, has a line equal
to the project.  (The handlers pass the permission-list path of the
identity.) -/
theorem hasPermissions_succeeds_iff (cfg : Config) (user project : Str) (w : World) :
    (∀ path : Str, (hasPermissions user project path w).2 = none ↔
      ∃ data, w.fs.readFile path = .ok data ∧ project ∈ stringsSplit data '\n') ∧
    ((hasPermissions user project (permissionsPath cfg user) w).2 = none ↔
      ∃ data, w.fs.readFile (permissionsPath cfg user) = .ok data ∧
        project ∈ stringsSplit data '\n') :=
  ⟨fun path => hasPermissions_none_iff user project path w,
    hasPermissions_none_iff user project _ w⟩

/-- Witness for C1 on the sample filesystem: `alice` is allowed in `proj1`
because her permission file has that line. -/
theorem hasPermissions_succeeds_iff_witness :
    (hasPermissions "alice".toList "proj1".toList
      (permissionsPath sampleConfig "alice".toList) sampleWorld).2 = none :=
  (hasPermissions_succeeds_iff sampleConfig "alice".toList "proj1".toList sampleWorld).2.2
    ⟨"proj1\n".toList, rfl, by decide⟩

/-! ## Authentication -/

/-- C5: in each handler authentication succeeds exactly when the
`Authorization` value begins with `Token `, and the identity is then the
remainder of the value, possibly empty: a value without the prefix (the
empty or absent header included) gets status 401, and a value `Token ` ++
rest gets another status, the next filesystem call being the read of the
permission list of `rest`.  (The create handler reaches its authentication
step when the form gives a `source` file; its calls are counted from the
world the parsing of the form leaves, which is the world before the request
when the file parts fit in memory.) -/
theorem token_authentication (cfg : Config) (r : Request) (w : World) :
    (∀ h : Str, (stringsCutPrefix h tokenPrefix).2 = true ↔ ∃ rest, h = tokenPrefix ++ rest) ∧
    (∀ rest : Str, stringsCutPrefix (tokenPrefix ++ rest) tokenPrefix = (rest, true)) ∧
    stringsCutPrefix tokenPrefix tokenPrefix = ([], true) ∧
    (stringsCutPrefix [] tokenPrefix).2 = false ∧
    ((¬ ∃ rest, r.HeaderGet "Authorization".toList = tokenPrefix ++ rest) →
      (getFileList cfg .fresh r w).1.status = 401 ∧
      (getFile cfg .fresh r w).1.status = 401 ∧
      ((r.FormFile "source".toList w).2 ≠ none → (createFile cfg .fresh r w).1.status = 401)) ∧
    (∀ rest, r.HeaderGet "Authorization".toList = tokenPrefix ++ rest →
      ((getFileList cfg .fresh r w).1.status ≠ 401 ∧
        ∃ more, (getFileList cfg .fresh r w).2.log =
          w.log ++ .readFile (permissionsPath cfg rest) :: more) ∧
      ((getFile cfg .fresh r w).1.status ≠ 401 ∧
        ∃ more, (getFile cfg .fresh r w).2.log =
          w.log ++ .readFile (permissionsPath cfg rest) :: more) ∧
      ((r.FormFile "source".toList w).2 ≠ none →
        (createFile cfg .fresh r w).1.status ≠ 401 ∧
        ∃ more, (createFile cfg .fresh r w).2.log =
          (r.FormFile "source".toList w).1.log ++
            .readFile (permissionsPath cfg rest) :: more)) ∧
    (r.fitsInMemory → (r.FormFile "source".toList w).1 = w) := by
  refine ⟨fun h => stringsCutPrefix_found h _, fun rest => stringsCutPrefix_append _ rest,
    by decide, by decide, ?_, ?_, fun hfit => by rw [FormFile_fits r _ w hfit]⟩
  · intro ha
    refine ⟨?_, ?_, ?_⟩
    · rw [getFileList_unauthorized cfg _ r w ha]; rfl
    · rw [getFile_unauthorized cfg _ r w ha]; rfl
    · intro hs
      cases hf : (r.FormFile "source".toList w).2 with
      | none => exact absurd hf hs
      | some up => rw [createFile_unauthorized cfg _ r w up hf ha]; rfl
  · intro rest ha
    refine ⟨?_, ?_, ?_⟩
    · rcases getFileList_outcomes cfg r w rest ha with ⟨-, h⟩ | ⟨-, -, h⟩ | ⟨-, files, -, h⟩ <;>
        rw [h] <;> exact ⟨by simp [httpError, ResponseWriter.status,
          ResponseWriter.Write, ResponseWriter.WriteHeader, ResponseWriter.fresh,
          StatusForbidden, StatusInternalServerError], _, by simp; rfl⟩
    · rcases getFile_outcomes cfg r w rest ha with ⟨-, h⟩ | ⟨-, -, h⟩ | ⟨-, data, -, h⟩ <;>
        rw [h] <;> exact ⟨by simp [httpError, ResponseWriter.status,
          ResponseWriter.Write, ResponseWriter.WriteHeader, ResponseWriter.fresh,
          StatusForbidden, StatusInternalServerError], _, by simp; rfl⟩
    · intro hs
      cases hff : r.FormFile "source".toList w with
      | mk w0 res =>
        cases res with
        | none => rw [hff] at hs; exact absurd rfl hs
        | some up =>
          obtain ⟨file, header⟩ := up
          rcases createFile_outcomes cfg r w w0 rest file header hff ha with
            ⟨-, h⟩ | ⟨-, -, h⟩ | ⟨-, dst, -, -, h⟩ | ⟨-, dst, -, -, h⟩ <;>
          rw [h] <;> exact ⟨by simp [httpError, ResponseWriter.status,
            ResponseWriter.Write, ResponseWriter.WriteHeader, ResponseWriter.fresh,
            StatusForbidden, StatusInternalServerError], _, by simp; rfl⟩

/-- Witness for C5: the header `Bearer xyz` is refused with 401 by the list
handler, the header `Token alice` is not. -/
theorem token_authentication_witness :
    (getFileList sampleConfig .fresh
      (mkRequest "proj1".toList [] (some "Bearer xyz".toList) none) sampleWorld).1.status = 401 ∧
    (getFileList sampleConfig .fresh
      (mkRequest "proj1".toList [] (some "Token alice".toList) none) sampleWorld).1.status ≠ 401 :=
  ⟨((token_authentication sampleConfig
      (mkRequest "proj1".toList [] (some "Bearer xyz".toList) none) sampleWorld).2.2.2.2.1
      (fun hex => absurd ((stringsCutPrefix_found _ _).2 hex) (by decide))).1,
   ((token_authentication sampleConfig
      (mkRequest "proj1".toList [] (some "Token alice".toList) none) sampleWorld).2.2.2.2.2.1
      "alice".toList (by decide)).1.1⟩

/-! ## Uploads that go to a temporary file -/

/-- A request whose only file part is too large for the memory: the part is
written to a new temporary file, which is then opened. -/
theorem FormFile_spooled (r : Request) (key content : Str) (header : FileHeader) (w : World)
    (fs1 : FS) (f : OsFile) (hfiles : r.files = [(key, (content, header))])
    (hbig : defaultMaxMemory < byteLen content)
    (hct : w.fs.createTemp = (fs1, .ok f))
    (hwr : (fs1.readFrom f content).2 = none) :
    r.FormFile key w =
      (⟨(fs1.readFrom f content).1,
        w.log ++ [.createTemp (tempDir ++ "/multipart-".toList ++ Nat.toDigits 10 w.fs.tempSeed),
          .write f.name, .openFile f.name]⟩,
        some (content, header)) := by
  unfold Request.FormFile Request.ParseMultipartForm
  rw [hfiles]
  unfold readFormParts
  rw [if_pos hbig]
  simp only [osCreateTemp, hct, OsFile.Write]
  cases hrf : fs1.readFrom f content with
  | mk fs2 e2 =>
    rw [hrf] at hwr
    simp only [] at hwr
    subst hwr
    simp [readFormParts, assocGet]

theorem bigUpload_size : byteLen bigUpload = 33554433 := by
  unfold bigUpload
  rw [byteLen_replicate]
  have : 'a'.utf8Size = 1 := by decide
  rw [this]

/-- The large upload of `bob` on the roomy filesystem: the form parser creates
the temporary file, writes the upload to it and opens it. -/
theorem bigUploadRequest_FormFile :
    bigUploadRequest.FormFile "source".toList ⟨roomyFS, []⟩ =
      (⟨(roomyFS.createTemp.1.readFrom ⟨firstTemp, firstTemp⟩ bigUpload).1,
        [.createTemp firstTemp, .write firstTemp, .openFile firstTemp]⟩,
        some (bigUpload, ⟨"big.bin".toList⟩)) := by
  have hbig : defaultMaxMemory < byteLen bigUpload := by
    rw [bigUpload_size]; decide
  have hct : (⟨roomyFS, []⟩ : World).fs.createTemp =
      (roomyFS.createTemp.1, .ok ⟨firstTemp, firstTemp⟩) := rfl
  have hwr : (roomyFS.createTemp.1.readFrom ⟨firstTemp, firstTemp⟩ bigUpload).2 = none := by
    apply FS.readFrom_fits
    rw [bigUpload_size]
    decide
  have := FormFile_spooled bigUploadRequest "source".toList bigUpload ⟨"big.bin".toList⟩
    ⟨roomyFS, []⟩ _ _ rfl hbig hct hwr
  rw [this]
  rfl

/-- The large upload does not change what the permission file of `bob` reads. -/
theorem bigUpload_keeps_permissions :
    (bigUploadRequest.FormFile "source".toList ⟨roomyFS, []⟩).1.fs.readFile
      (permissionsPath sampleConfig "bob".toList) =
    roomyFS.readFile (permissionsPath sampleConfig "bob".toList) := by
  rw [bigUploadRequest_FormFile]
  apply FS.readFile_congr
  · rfl
  · show lookupNode (setNode firstTemp _ roomyFS.createTemp.1.entries) _ = _
    rw [lookupNode_setNode, if_neg (by decide)]
    decide

/-! ## Refused requests -/

/-- C4, as the code has it: when the request carries a token and the
authorization check fails, the list and fetch handlers answer 403, leave the
filesystem as it was, and their only filesystem call is the read of the
permission file.  The create handler, given a `source` form file, answers 403
as well; from the world the parsing of the form left, its only filesystem
call is the read of the permission file and the filesystem stays as it is.
The parsing of the form comes before the check: it changes nothing when the
file parts fit in the 32 MiB kept in memory. -/
theorem forbidden_after_form_parsing (cfg : Config) (r : Request) (w : World) (user : Str)
    (ha : r.HeaderGet "Authorization".toList = tokenPrefix ++ user) :
    ((¬ ∃ data, w.fs.readFile (permissionsPath cfg user) = .ok data ∧
        r.ByName "project".toList ∈ stringsSplit data '\n') →
      ((getFileList cfg .fresh r w).1.status = 403 ∧
        (getFileList cfg .fresh r w).2.fs = w.fs ∧
        (getFileList cfg .fresh r w).2.log = w.log ++ [.readFile (permissionsPath cfg user)]) ∧
      ((getFile cfg .fresh r w).1.status = 403 ∧
        (getFile cfg .fresh r w).2.fs = w.fs ∧
        (getFile cfg .fresh r w).2.log = w.log ++ [.readFile (permissionsPath cfg user)])) ∧
    ((r.FormFile "source".toList w).2 ≠ none →
      (¬ ∃ data, (r.FormFile "source".toList w).1.fs.readFile (permissionsPath cfg user)
          = .ok data ∧ r.ByName "project".toList ∈ stringsSplit data '\n') →
      (createFile cfg .fresh r w).1.status = 403 ∧
      (createFile cfg .fresh r w).2.fs = (r.FormFile "source".toList w).1.fs ∧
      (createFile cfg .fresh r w).2.log =
        (r.FormFile "source".toList w).1.log ++ [.readFile (permissionsPath cfg user)]) ∧
    (r.fitsInMemory → (r.FormFile "source".toList w).1 = w) := by
  refine ⟨?_, ?_, ?_⟩
  · intro hdeny
    have hp : (hasPermissions user (r.ByName "project".toList) (permissionsPath cfg user) w).2
        ≠ none := fun h => hdeny ((hasPermissions_none_iff _ _ _ _).1 h)
    constructor
    · rw [getFileList_forbidden cfg _ r w user ha hp]
      exact ⟨rfl, rfl, rfl⟩
    · rw [getFile_forbidden cfg _ r w user ha hp]
      exact ⟨rfl, rfl, rfl⟩
  · intro hs hdeny
    have hp : (hasPermissions user (r.ByName "project".toList) (permissionsPath cfg user)
        (r.FormFile "source".toList w).1).2 ≠ none :=
      fun h => hdeny ((hasPermissions_none_iff _ _ _ _).1 h)
    cases hf : (r.FormFile "source".toList w).2 with
    | none => exact absurd hf hs
    | some up =>
      rw [createFile_forbidden cfg _ r w up user hf ha hp]
      exact ⟨rfl, rfl, rfl⟩
  · intro hfit
    rw [FormFile_fits r _ w hfit]

/-- Witness for C4 as amended: `bob`, whose permission file lists only `proj2`,
uploads to `proj1`: status 403 and the filesystem is unchanged. -/
theorem forbidden_after_form_parsing_witness :
    (createFile sampleConfig .fresh
      (mkRequest "proj1".toList [] (some "Token bob".toList)
        (some ("notes.txt".toList, "hello".toList))) sampleWorld).1.status = 403 ∧
    (createFile sampleConfig .fresh
      (mkRequest "proj1".toList [] (some "Token bob".toList)
        (some ("notes.txt".toList, "hello".toList))) sampleWorld).2.fs = sampleFS :=
  have h := (forbidden_after_form_parsing sampleConfig
    (mkRequest "proj1".toList [] (some "Token bob".toList)
      (some ("notes.txt".toList, "hello".toList))) sampleWorld "bob".toList (by decide))
  have h1 := h.2.1 (by decide)
    (fun hex => absurd ((hasPermissions_none_iff "bob".toList _ _ _).2 hex) (by decide))
  ⟨h1.1, h1.2.1.trans (congrArg World.fs (h.2.2 (by decide)))⟩

/-- Counterexample to C4 as stated: `bob`, not allowed in `proj1`, uploads 32
MiB and one byte to it.  The request has a token and a `source` file and the
check fails; the answer is 403, but before the check the form parser has
created the temporary file `/tmp/multipart-0` and written the upload to it. -/
theorem large_upload_is_written_before_refusal :
    bigUploadRequest.HeaderGet "Authorization".toList = tokenPrefix ++ "bob".toList ∧
    (bigUploadRequest.FormFile "source".toList ⟨roomyFS, []⟩).2 =
      some (bigUpload, ⟨"big.bin".toList⟩) ∧
    (hasPermissions "bob".toList "proj1".toList (permissionsPath sampleConfig "bob".toList)
      ⟨roomyFS, []⟩).2 ≠ none ∧
    (createFile sampleConfig .fresh bigUploadRequest ⟨roomyFS, []⟩).1.status = 403 ∧
    (createFile sampleConfig .fresh bigUploadRequest ⟨roomyFS, []⟩).2.log =
      [.createTemp firstTemp, .write firstTemp, .openFile firstTemp,
        .readFile "/srv/users/bob/projects".toList] ∧
    lookupNode roomyFS.entries firstTemp = none ∧
    lookupNode (createFile sampleConfig .fresh bigUploadRequest ⟨roomyFS, []⟩).2.fs.entries
      firstTemp = some (.file bigUpload) := by
  have hff := bigUploadRequest_FormFile
  have h2 : (bigUploadRequest.FormFile "source".toList ⟨roomyFS, []⟩).2 =
      some (bigUpload, ⟨"big.bin".toList⟩) := by rw [hff]
  have ha : bigUploadRequest.HeaderGet "Authorization".toList = tokenPrefix ++ "bob".toList := by
    decide
  have hp0 : (hasPermissions "bob".toList "proj1".toList
      (permissionsPath sampleConfig "bob".toList) ⟨roomyFS, []⟩).2 ≠ none := by decide
  have hp : (hasPermissions "bob".toList (bigUploadRequest.ByName "project".toList)
      (permissionsPath sampleConfig "bob".toList)
      (bigUploadRequest.FormFile "source".toList ⟨roomyFS, []⟩).1).2 ≠ none := by
    rw [hasPermissions_congr "bob".toList _ _ _ ⟨roomyFS, []⟩ bigUpload_keeps_permissions]
    exact hp0
  have hwr : (roomyFS.createTemp.1.readFrom ⟨firstTemp, firstTemp⟩ bigUpload).2 = none := by
    apply FS.readFrom_fits
    rw [bigUpload_size]
    decide
  refine ⟨ha, h2, hp0, ?_, ?_, by decide, ?_⟩
  · rw [createFile_forbidden sampleConfig _ bigUploadRequest _ _ "bob".toList h2 ha hp]
    rfl
  · rw [createFile_forbidden sampleConfig _ bigUploadRequest _ _ "bob".toList h2 ha hp, hff]
    rfl
  · rw [createFile_forbidden sampleConfig _ bigUploadRequest _ _ "bob".toList h2 ha hp, hff]
    show lookupNode (roomyFS.createTemp.1.readFrom ⟨firstTemp, firstTemp⟩ bigUpload).1.entries
      firstTemp = _
    unfold FS.readFrom
    simp only []
    rw [lookupNode_setNode, if_pos rfl]
    have hmin : min (byteLen bigUpload) roomyFS.createTemp.1.free = byteLen bigUpload := by
      rw [bigUpload_size]; decide
    rw [hmin, takeBytes_all _ _ (le_refl _)]
    rfl

/-- C6, as the code has it: a request whose `Authorization` value does not
begin with `Token ` (absent, empty, another scheme) gets status 401 from the
list and fetch handlers, which make no filesystem call.  The create handler
parses the form first: it answers 401 when the form gives a `source` file
and 400 when it does not, and the world it leaves is the one the parsing of
the form left, which is the world before the request when the file parts
fit in the 32 MiB kept in memory. -/
theorem malformed_authorization_rejected (cfg : Config) (r : Request) (w : World)
    (ha : ¬ ∃ rest, r.HeaderGet "Authorization".toList = tokenPrefix ++ rest) :
    ((getFileList cfg .fresh r w).1.status = 401 ∧ (getFileList cfg .fresh r w).2 = w) ∧
    ((getFile cfg .fresh r w).1.status = 401 ∧ (getFile cfg .fresh r w).2 = w) ∧
    (createFile cfg .fresh r w).2 = (r.FormFile "source".toList w).1 ∧
    ((r.FormFile "source".toList w).2 ≠ none → (createFile cfg .fresh r w).1.status = 401) ∧
    ((r.FormFile "source".toList w).2 = none → (createFile cfg .fresh r w).1.status = 400) ∧
    (r.fitsInMemory → (createFile cfg .fresh r w).2 = w) := by
  have hworld : (createFile cfg .fresh r w).2 = (r.FormFile "source".toList w).1 := by
    cases hf : (r.FormFile "source".toList w).2 with
    | none => rw [createFile_no_source cfg _ r w hf]
    | some up => rw [createFile_unauthorized cfg _ r w up hf ha]
  refine ⟨?_, ?_, hworld, ?_, ?_, ?_⟩
  · rw [getFileList_unauthorized cfg _ r w ha]; exact ⟨rfl, rfl⟩
  · rw [getFile_unauthorized cfg _ r w ha]; exact ⟨rfl, rfl⟩
  · intro hs
    cases hf : (r.FormFile "source".toList w).2 with
    | none => exact absurd hf hs
    | some up => rw [createFile_unauthorized cfg _ r w up hf ha]; rfl
  · intro hf
    rw [createFile_no_source cfg _ r w hf]; rfl
  · intro hfit
    rw [hworld, FormFile_fits r _ w hfit]

/-- Witness for C6 as amended: header `Bearer xyz` on the fetch handler. -/
theorem malformed_authorization_rejected_witness :
    (getFile sampleConfig .fresh
      (mkRequest "proj1".toList "notes.txt".toList (some "Bearer xyz".toList) none)
      sampleWorld).1.status = 401 ∧
    (getFile sampleConfig .fresh
      (mkRequest "proj1".toList "notes.txt".toList (some "Bearer xyz".toList) none)
      sampleWorld).2 = sampleWorld :=
  (malformed_authorization_rejected sampleConfig
    (mkRequest "proj1".toList "notes.txt".toList (some "Bearer xyz".toList) none) sampleWorld
    (fun hex => absurd ((stringsCutPrefix_found _ _).2 hex) (by decide))).2.1

/-- Counterexample to C6 as stated: a create request with the header
`Bearer xyz` and no `source` form file is answered 400, not 401. -/
theorem create_without_source_is_400 :
    (¬ ∃ rest, (mkRequest "proj1".toList [] (some "Bearer xyz".toList) none).HeaderGet
        "Authorization".toList = tokenPrefix ++ rest) ∧
    (createFile sampleConfig .fresh
      (mkRequest "proj1".toList [] (some "Bearer xyz".toList) none) sampleWorld).1.status = 400 ∧
    ¬ (createFile sampleConfig .fresh
      (mkRequest "proj1".toList [] (some "Bearer xyz".toList) none) sampleWorld).1.status = 401 :=
  ⟨fun hex => absurd ((stringsCutPrefix_found _ _).2 hex) (by decide), by decide, by decide⟩

/-! ## Names with `..` or a leading `/` -/

/-- C3, as the code has it: the handlers make no check on the project name or
the file name, and a request whose names contain `..` or begin with `/` is
treated as any other.  List and fetch: without a token the answer is 401 and
no filesystem call is made; with a token the permission file of the identity
is read first; when the check fails the answer is 403 and that read is the
only filesystem call; when it succeeds the handler goes on to the directory
read or the file read on the resolved path.  Create: the form is parsed
first; without a `source` file the answer is 400; with one the same steps
follow from the world the parsing left, the last being the file create on
the resolved path. -/
theorem traversal_names_reach_filesystem (cfg : Config) (r : Request) (w : World)
    (ht : traversalName (r.ByName "project".toList) = true ∨
      traversalName (r.ByName "fname".toList) = true ∨
      ∃ file header, (r.FormFile "source".toList w).2 = some (file, header) ∧
        traversalName header.Filename = true) :
    ((¬ ∃ rest, r.HeaderGet "Authorization".toList = tokenPrefix ++ rest) →
      ((getFileList cfg .fresh r w).1.status = 401 ∧ (getFileList cfg .fresh r w).2 = w) ∧
      ((getFile cfg .fresh r w).1.status = 401 ∧ (getFile cfg .fresh r w).2 = w)) ∧
    (∀ user, r.HeaderGet "Authorization".toList = tokenPrefix ++ user →
      ((hasPermissions user (r.ByName "project".toList) (permissionsPath cfg user) w).2 ≠ none →
        ((getFileList cfg .fresh r w).1.status = 403 ∧
          (getFileList cfg .fresh r w).2.log =
            w.log ++ [.readFile (permissionsPath cfg user)]) ∧
        ((getFile cfg .fresh r w).1.status = 403 ∧
          (getFile cfg .fresh r w).2.log = w.log ++ [.readFile (permissionsPath cfg user)])) ∧
      ((hasPermissions user (r.ByName "project".toList) (permissionsPath cfg user) w).2 = none →
        (∃ more, (getFileList cfg .fresh r w).2.log =
          w.log ++ [.readFile (permissionsPath cfg user),
            .readDir (projectPath cfg (r.ByName "project".toList))] ++ more) ∧
        (getFile cfg .fresh r w).2.log =
          w.log ++ [.readFile (permissionsPath cfg user),
            .readFile (contentPath cfg (r.ByName "project".toList)
              (r.ByName "fname".toList))])) ∧
    ((r.FormFile "source".toList w).2 = none →
      (createFile cfg .fresh r w).1.status = 400 ∧
      (createFile cfg .fresh r w).2 = (r.FormFile "source".toList w).1) ∧
    (∀ file header, (r.FormFile "source".toList w).2 = some (file, header) →
      ((¬ ∃ rest, r.HeaderGet "Authorization".toList = tokenPrefix ++ rest) →
        (createFile cfg .fresh r w).1.status = 401 ∧
        (createFile cfg .fresh r w).2 = (r.FormFile "source".toList w).1) ∧
      (∀ user, r.HeaderGet "Authorization".toList = tokenPrefix ++ user →
        ((hasPermissions user (r.ByName "project".toList) (permissionsPath cfg user)
            (r.FormFile "source".toList w).1).2 ≠ none →
          (createFile cfg .fresh r w).1.status = 403 ∧
          (createFile cfg .fresh r w).2.log =
            (r.FormFile "source".toList w).1.log ++ [.readFile (permissionsPath cfg user)]) ∧
        ((hasPermissions user (r.ByName "project".toList) (permissionsPath cfg user)
            (r.FormFile "source".toList w).1).2 = none →
          ∃ more, (createFile cfg .fresh r w).2.log =
            (r.FormFile "source".toList w).1.log ++
              [.readFile (permissionsPath cfg user),
               .create (contentPath cfg (r.ByName "project".toList) header.Filename)]
              ++ more))) := by
  have _ := ht
  refine ⟨?_, ?_, ?_, ?_⟩
  · intro ha
    constructor
    · rw [getFileList_unauthorized cfg _ r w ha]; exact ⟨rfl, rfl⟩
    · rw [getFile_unauthorized cfg _ r w ha]; exact ⟨rfl, rfl⟩
  · intro user ha
    constructor
    · intro hp
      constructor
      · rw [getFileList_forbidden cfg _ r w user ha hp]; exact ⟨rfl, rfl⟩
      · rw [getFile_forbidden cfg _ r w user ha hp]; exact ⟨rfl, rfl⟩
    · intro hp
      constructor
      · rcases getFileList_outcomes cfg r w user ha with ⟨h1, -⟩ | ⟨-, -, h⟩ | ⟨-, files, -, h⟩
        · exact absurd hp h1
        · rw [h]; exact ⟨[], by simp⟩
        · rw [h]; exact ⟨_, rfl⟩
      · rcases getFile_outcomes cfg r w user ha with ⟨h1, -⟩ | ⟨-, -, h⟩ | ⟨-, data, -, h⟩
        · exact absurd hp h1
        · rw [h]
        · rw [h]
  · intro hf
    rw [createFile_no_source cfg _ r w hf]; exact ⟨rfl, rfl⟩
  · intro file header hf
    constructor
    · intro ha
      rw [createFile_unauthorized cfg _ r w _ hf ha]; exact ⟨rfl, rfl⟩
    · intro user ha
      have hff : r.FormFile "source".toList w =
          ((r.FormFile "source".toList w).1, some (file, header)) := by
        rw [← hf]
      constructor
      · intro hp
        rw [createFile_forbidden cfg _ r w _ user hf ha hp]; exact ⟨rfl, rfl⟩
      · intro hp
        rcases createFile_outcomes cfg r w _ user file header hff ha with
          ⟨h1, -⟩ | ⟨-, -, h⟩ | ⟨-, dst, -, -, h⟩ | ⟨-, dst, -, -, h⟩
        · exact absurd hp h1
        · rw [h]; exact ⟨[], by simp⟩
        · rw [h]; exact ⟨[.write dst.name], by simp⟩
        · rw [h]; exact ⟨[.write dst.name], by simp⟩

/-- Witness for C3 as amended: `alice` asks for the project `../../etc`; the
permission file is read and the answer is 403. -/
theorem traversal_names_reach_filesystem_witness :
    (getFileList sampleConfig .fresh
      (mkRequest "../../etc".toList [] (some "Token alice".toList) none) sampleWorld).1.status
      = 403 ∧
    (getFileList sampleConfig .fresh
      (mkRequest "../../etc".toList [] (some "Token alice".toList) none) sampleWorld).2.log
      = [.readFile "/srv/users/alice/projects".toList] :=
  (((traversal_names_reach_filesystem sampleConfig
    (mkRequest "../../etc".toList [] (some "Token alice".toList) none) sampleWorld
    (Or.inl (by decide))).2.1 "alice".toList (by decide)).1 (by decide)).1

/-- Counterexample to C3 as stated: `mallory`, whose permission file has the
line `..`, lists the project `..`: the handler reads the permission file and
the directory `/srv`, and answers 200 with the entries of `/srv`. -/
theorem dotdot_project_is_listed :
    traversalName "..".toList = true ∧
    (getFileList sampleConfig .fresh
      (mkRequest "..".toList [] (some "Token mallory".toList) none) sampleWorld).1.status = 200 ∧
    (getFileList sampleConfig .fresh
      (mkRequest "..".toList [] (some "Token mallory".toList) none) sampleWorld).1.body =
      "[\x7b\"name\":\"data\",\"bytes\":4096\x7d,\x7b\"name\":\"users\",\"bytes\":4096\x7d]".toList ∧
    (getFileList sampleConfig .fresh
      (mkRequest "..".toList [] (some "Token mallory".toList) none) sampleWorld).2.log =
      [.readFile "/srv/users/mallory/projects".toList, .readDir "/srv".toList,
        .lstat "/srv/data".toList, .lstat "/srv/users".toList] := by
  decide

/-! ## Upload, then fetch -/

theorem hexValue_hexDigit (k : Nat) (h : k < 16) : hexValue (hexDigit k) = some k := by
  interval_cases k <;> rfl

theorem read_plain_backslash (acc cs : Str) :
    readJsonString .plain acc ('\\' :: cs) = readJsonString .escaped acc cs := by
  rw [readJsonString, if_neg (by decide), if_pos rfl]

theorem read_plain_char (c : Char) (acc cs : Str) (h1 : c ≠ '"') (h2 : c ≠ '\\')
    (h3 : ¬ c.toNat < 32) :
    readJsonString .plain acc (c :: cs) = readJsonString .plain (c :: acc) cs := by
  rw [readJsonString, if_neg h1, if_neg h2, if_neg h3]

theorem read_escaped_u (acc cs : Str) :
    readJsonString .escaped acc ('u' :: cs) = readJsonString (.hex 4 0) acc cs := by
  rw [readJsonString, if_pos rfl]

theorem read_hex_step (left value d : Nat) (c : Char) (acc cs : Str) (hv : hexValue c = some d)
    (hl : ¬ left ≤ 1) :
    readJsonString (.hex left value) acc (c :: cs) =
      readJsonString (.hex (left - 1) (16 * value + d)) acc cs := by
  rw [readJsonString, hv]
  simp only []
  rw [if_neg hl]

theorem read_hex_last (value d : Nat) (c : Char) (acc cs : Str) (hv : hexValue c = some d) :
    readJsonString (.hex 1 value) acc (c :: cs) =
      readJsonString .plain (Char.ofNat (16 * value + d) :: acc) cs := by
  rw [readJsonString, hv]
  simp only []
  rw [if_pos (le_refl 1)]

/-- A `\u` escape of four digits is read as the character of that value. -/
theorem read_unicode_escape (a b c d : Char) (va vb vc vd : Nat) (acc cs : Str)
    (ha : hexValue a = some va) (hb : hexValue b = some vb) (hc : hexValue c = some vc)
    (hd : hexValue d = some vd) :
    readJsonString .plain acc ('\\' :: 'u' :: a :: b :: c :: d :: cs) =
      readJsonString .plain
        (Char.ofNat (16 * (16 * (16 * (16 * 0 + va) + vb) + vc) + vd) :: acc) cs := by
  rw [read_plain_backslash, read_escaped_u, read_hex_step 4 0 va a acc _ ha (by decide),
    read_hex_step 3 _ vb b acc _ hb (by decide), read_hex_step 2 _ vc c acc _ hc (by decide),
    read_hex_last _ vd d acc _ hd]

/-- What `encoding/json` writes for one character is read back as that
character. -/
theorem read_jsonEscapeChar (c : Char) (acc rest : Str) :
    readJsonString .plain acc (jsonEscapeChar c ++ rest) =
      readJsonString .plain (c :: acc) rest := by
  unfold jsonEscapeChar
  split
  · rename_i h; subst h
    show readJsonString .plain acc ('\\' :: '"' :: rest) = _
    rw [read_plain_backslash, readJsonString, if_neg (by decide), if_pos rfl]
  · split
    · rename_i h; subst h
      show readJsonString .plain acc ('\\' :: '\\' :: rest) = _
      rw [read_plain_backslash, readJsonString, if_neg (by decide), if_neg (by decide),
        if_pos rfl]
    · split
      · rename_i h; subst h
        show readJsonString .plain acc ('\\' :: 'b' :: rest) = _
        rw [read_plain_backslash, readJsonString, if_neg (by decide), if_neg (by decide),
          if_neg (by decide), if_neg (by decide), if_pos rfl]
      · split
        · rename_i h; subst h
          show readJsonString .plain acc ('\\' :: 'f' :: rest) = _
          rw [read_plain_backslash, readJsonString, if_neg (by decide), if_neg (by decide),
            if_neg (by decide), if_neg (by decide), if_neg (by decide), if_pos rfl]
        · split
          · rename_i h; subst h
            show readJsonString .plain acc ('\\' :: 'n' :: rest) = _
            rw [read_plain_backslash, readJsonString, if_neg (by decide), if_neg (by decide),
              if_neg (by decide), if_neg (by decide), if_neg (by decide), if_neg (by decide),
              if_pos rfl]
          · split
            · rename_i h; subst h
              show readJsonString .plain acc ('\\' :: 'r' :: rest) = _
              rw [read_plain_backslash, readJsonString, if_neg (by decide),
                if_neg (by decide), if_neg (by decide), if_neg (by decide),
                if_neg (by decide), if_neg (by decide), if_neg (by decide), if_pos rfl]
            · split
              · rename_i h; subst h
                show readJsonString .plain acc ('\\' :: 't' :: rest) = _
                rw [read_plain_backslash, readJsonString, if_neg (by decide),
                  if_neg (by decide), if_neg (by decide), if_neg (by decide),
                  if_neg (by decide), if_neg (by decide), if_neg (by decide),
                  if_neg (by decide), if_pos rfl]
              · split
                · rename_i h
                  have hlt : c.toNat < 256 := by
                    rcases h with h | h | h | h
                    · omega
                    · subst h; decide
                    · subst h; decide
                    · subst h; decide
                  show readJsonString .plain acc
                    ('\\' :: 'u' :: '0' :: '0' :: hexDigit (c.toNat / 16) ::
                      hexDigit (c.toNat % 16) :: rest) = _
                  rw [read_unicode_escape '0' '0' _ _ 0 0 (c.toNat / 16) (c.toNat % 16) acc rest
                    rfl rfl (hexValue_hexDigit _ (by omega)) (hexValue_hexDigit _ (by omega))]
                  have hv : 16 * (16 * (16 * (16 * 0 + 0) + 0) + c.toNat / 16) + c.toNat % 16
                      = c.toNat := by omega
                  rw [hv, Char.ofNat_toNat]
                · split
                  · rename_i h
                    show readJsonString .plain acc
                      ('\\' :: 'u' :: '2' :: '0' :: '2' :: '8' :: rest) = _
                    rw [read_unicode_escape '2' '0' '2' '8' 2 0 2 8 acc rest rfl rfl rfl rfl]
                    have hv : 16 * (16 * (16 * (16 * 0 + 2) + 0) + 2) + 8 = c.toNat := by
                      rw [h]
                    rw [hv, Char.ofNat_toNat]
                  · split
                    · rename_i h
                      show readJsonString .plain acc
                        ('\\' :: 'u' :: '2' :: '0' :: '2' :: '9' :: rest) = _
                      rw [read_unicode_escape '2' '0' '2' '9' 2 0 2 9 acc rest rfl rfl rfl rfl]
                      have hv : 16 * (16 * (16 * (16 * 0 + 2) + 0) + 2) + 9 = c.toNat := by
                        rw [h]
                      rw [hv, Char.ofNat_toNat]
                    · rename_i h1 h2 _ _ _ _ _ h8 _ _
                      show readJsonString .plain acc (c :: rest) = _
                      exact read_plain_char c acc rest h1 h2 (fun hlt => h8 (Or.inl hlt))

/-- An encoded string followed by the closing quote is read back as the
string. -/
theorem read_encoded_string (s acc rest : Str) :
    readJsonString .plain acc (s.flatMap jsonEscapeChar ++ '"' :: rest) =
      some (acc.reverse ++ s, rest) := by
  induction s generalizing acc with
  | nil =>
    show readJsonString .plain acc ('"' :: rest) = _
    rw [readJsonString, if_pos rfl]
    simp
  | cons c cs ih =>
    rw [List.flatMap_cons, List.append_assoc, read_jsonEscapeChar, ih]
    simp

theorem digitChar_spec (k : Nat) (h : k < 10) :
    (Nat.digitChar k).isDigit = true ∧ (Nat.digitChar k).toNat - '0'.toNat = k ∧
    (Nat.digitChar k = '0' → k = 0) := by
  interval_cases k <;> decide

theorem readDigits_run (ds rest : Str) (v : Nat) (hd : ∀ c ∈ ds, c.isDigit = true) :
    readDigits v (ds ++ '\x7d' :: rest) = (digitsValue v ds, '\x7d' :: rest) := by
  induction ds generalizing v with
  | nil =>
    show readDigits v ('\x7d' :: rest) = _
    rw [readDigits, if_neg (by decide)]
    rfl
  | cons c cs ih =>
    rw [List.cons_append, readDigits, if_pos (hd c (List.mem_cons_self _ _)),
      ih _ (fun x hx => hd x (List.mem_cons_of_mem _ hx))]
    rfl

/-- What `Nat.toDigitsCore` puts in front of the digits it is given: a run of
digits of value `n`, without a leading zero unless it is the single `0`. -/
theorem toDigitsCore_spec (fuel n : Nat) (ds : Str) (h : n < fuel) :
    ∃ pre, Nat.toDigitsCore 10 fuel n ds = pre ++ ds ∧ pre ≠ [] ∧
      (∀ c ∈ pre, c.isDigit = true) ∧ digitsValue 0 pre = n ∧
      (pre.head? = some '0' → pre = ['0']) := by
  induction fuel generalizing n ds with
  | zero => omega
  | succ fuel ih =>
    obtain ⟨hd1, hd2, hd3⟩ := digitChar_spec (n % 10) (Nat.mod_lt _ (by decide))
    unfold Nat.toDigitsCore
    simp only []
    by_cases hz : n / 10 = 0
    · rw [if_pos hz]
      refine ⟨[Nat.digitChar (n % 10)], rfl, by simp, ?_, ?_, ?_⟩
      · intro c hc
        rw [List.mem_singleton.1 hc]; exact hd1
      · show 10 * 0 + ((Nat.digitChar (n % 10)).toNat - '0'.toNat) = n
        rw [hd2]; omega
      · intro _; simp only [List.cons.injEq, and_true]
        simp only [List.head?_cons, Option.some.injEq] at *
        assumption
    · rw [if_neg hz]
      obtain ⟨pre, h1, h2, h3, h4, h5⟩ := ih (n / 10) (Nat.digitChar (n % 10) :: ds) (by omega)
      refine ⟨pre ++ [Nat.digitChar (n % 10)], ?_, by simp, ?_, ?_, ?_⟩
      · rw [h1]; simp
      · intro c hc
        rcases List.mem_append.1 hc with hc | hc
        · exact h3 c hc
        · rw [List.mem_singleton.1 hc]; exact hd1
      · unfold digitsValue at h4 ⊢
        rw [List.foldl_append, h4]
        show 10 * (n / 10) + ((Nat.digitChar (n % 10)).toNat - '0'.toNat) = n
        rw [hd2]; omega
      · intro hhead
        cases pre with
        | nil => exact absurd rfl h2
        | cons p ps =>
          have hp : (p :: ps) = ['0'] := h5 (by simpa using hhead)
          rw [hp] at h4
          have h0 : digitsValue 0 ['0'] = 0 := by decide
          rw [h0] at h4
          exact absurd h4.symm hz

/-- The decimal digits of a number followed by `}` are read back as the
number. -/
theorem read_toDigits (n : Nat) (rest : Str) :
    readJsonNat (Nat.toDigits 10 n ++ '\x7d' :: rest) = some (n, '\x7d' :: rest) := by
  obtain ⟨pre, h1, h2, h3, h4, h5⟩ := toDigitsCore_spec (n + 1) n [] (by omega)
  have ht : Nat.toDigits 10 n = pre := by
    unfold Nat.toDigits
    rw [h1]; simp
  rw [ht]
  cases pre with
  | nil => exact absurd rfl h2
  | cons c cs =>
    have hc := h3 c (List.mem_cons_self _ _)
    rw [List.cons_append, readJsonNat, if_pos hc]
    have hnz : ¬ (c = '0' ∧ ((cs ++ '\x7d' :: rest).head?.map Char.isDigit) = some true) := by
      rintro ⟨hc0, hnext⟩
      have hp : (c :: cs) = ['0'] := h5 (by simp [hc0])
      have hcs : cs = [] := by simpa using (List.cons.inj hp).2
      rw [hcs] at hnext
      have hfalse : ((([] : Str) ++ '\x7d' :: rest).head?.map Char.isDigit) = some false := rfl
      rw [hfalse] at hnext
      exact absurd hnext (by decide)
    rw [if_neg hnz, ← List.cons_append, readDigits_run (c :: cs) rest 0 h3, h4]

theorem expectExact_append (text s : Str) : expectExact text (text ++ s) = some s := by
  unfold expectExact
  rw [if_pos ((stringsHasPrefix_iff _ _).2 ⟨s, rfl⟩)]
  simp

/-- The object written for a file is read back as the file. -/
theorem read_jsonFile (f : File) (rest : Str) :
    readJsonFile (jsonFile f ++ rest) = some (f, rest) := by
  have e : jsonFile f ++ rest =
      "\x7b\"name\":\"".toList ++ (f.Name.flatMap jsonEscapeChar ++ '"' ::
        (",\"bytes\":".toList ++ (Nat.toDigits 10 f.Size ++ '\x7d' :: rest))) := by
    simp only [jsonFile, jsonString, List.append_assoc, List.cons_append]
    rfl
  rw [e]
  unfold readJsonFile
  rw [expectExact_append]
  simp only [Option.bind]
  rw [read_encoded_string]
  simp only [List.reverse_nil, List.nil_append]
  rw [expectExact_append]
  simp only []
  rw [read_toDigits]
  simp only []
  rw [show ('\x7d' :: rest) = "\x7d".toList ++ rest from rfl, expectExact_append]
  rfl

theorem jsonFile_ne_nil (f : File) : jsonFile f ≠ [] := by
  unfold jsonFile
  intro h
  have := congrArg List.length h
  simp at this

/-- The objects of a non-empty list of files, joined by commas and closed by
`]`, are read back as the files. -/
theorem read_joined_files (files : List File) (fuel : Nat) (rest : Str)
    (hne : files ≠ []) (hfuel : files.length ≤ fuel) :
    readJsonFiles fuel (stringsJoin (files.map jsonFile) [','] ++ ']' :: rest) =
      some (files, rest) := by
  induction files generalizing fuel with
  | nil => exact absurd rfl hne
  | cons f fs ih =>
    cases fuel with
    | zero => simp at hfuel
    | succ fuel =>
      cases fs with
      | nil =>
        show readJsonFiles (fuel + 1) (jsonFile f ++ ']' :: rest) = _
        rw [readJsonFiles, read_jsonFile]
        rfl
      | cons g gs =>
        have hfuel2 : (g :: gs).length ≤ fuel := by simpa using hfuel
        show readJsonFiles (fuel + 1)
          (jsonFile f ++ [','] ++ stringsJoin ((g :: gs).map jsonFile) [','] ++ ']' :: rest) = _
        rw [List.append_assoc, List.append_assoc, readJsonFiles, read_jsonFile]
        show (readJsonFiles fuel
          (stringsJoin ((g :: gs).map jsonFile) [','] ++ ']' :: rest)).map _ = _
        rw [ih fuel (by simp) hfuel2]
        rfl

theorem stringsJoin_length (l : List Str) (sep : Str) (h : ∀ e ∈ l, e ≠ []) :
    l.length ≤ (stringsJoin l sep).length := by
  induction l with
  | nil => simp [stringsJoin]
  | cons a rest ih =>
    have ha : 0 < a.length := List.length_pos.2 (h a (List.mem_cons_self _ _))
    cases rest with
    | nil => simpa [stringsJoin] using ha
    | cons b rest2 =>
      have := ih (fun e he => h e (List.mem_cons_of_mem _ he))
      simp only [stringsJoin, List.length_append, List.length_cons] at this ⊢
      omega

/-- The array `json.Marshal` writes for a list of files is read back as that
list. -/
theorem readListing_jsonArray (files : List File) :
    readListing (jsonArray (files.map jsonFile)) = some files := by
  cases files with
  | nil => rfl
  | cons f fs =>
    unfold jsonArray readListing
    simp only []
    have hne : stringsJoin ((f :: fs).map jsonFile) [','] ++ [']'] ≠ [']'] := by
      intro h
      have hl := congrArg List.length h
      have := stringsJoin_length ((f :: fs).map jsonFile) [','] (by
        intro e he
        obtain ⟨x, -, rfl⟩ := List.mem_map.1 he
        exact jsonFile_ne_nil x)
      simp only [List.length_append, List.length_cons, List.length_nil, List.length_map] at hl this
      omega
    rw [if_neg hne, read_joined_files (f :: fs) _ [] (by simp)]
    have := stringsJoin_length ((f :: fs).map jsonFile) [','] (by
      intro e he
      obtain ⟨x, -, rfl⟩ := List.mem_map.1 he
      exact jsonFile_ne_nil x)
    simp only [List.length_append, List.length_map] at this ⊢
    omega

/-! ## Listing a project -/

/-- C8: for a list request with a token that passes the authorization check:
when the directory read fails the status is 500; otherwise the status is 200
and the body is a JSON array that reads back, in the order of the directory
read, as one object with `name` and `bytes` per entry whose size lookup
succeeds, the name and the size in bytes of that entry, the other entries
being skipped; with no such entry the body is `[]`, never `null`. -/
theorem listing_body (cfg : Config) (r : Request) (w : World) (user : Str)
    (ha : r.HeaderGet "Authorization".toList = tokenPrefix ++ user)
    (hp : (hasPermissions user (r.ByName "project".toList) (permissionsPath cfg user) w).2
      = none) :
    (∀ e, w.fs.readDir (projectPath cfg (r.ByName "project".toList)) = .error e →
      (getFileList cfg .fresh r w).1.status = 500) ∧
    (∀ files, w.fs.readDir (projectPath cfg (r.ByName "project".toList)) = .ok files →
      (getFileList cfg .fresh r w).1.status = 200 ∧
      readListing (getFileList cfg .fresh r w).1.body = some (sizedEntries files) ∧
      (getFileList cfg .fresh r w).1.body = jsonArray ((sizedEntries files).map jsonFile) ∧
      (getFileList cfg .fresh r w).1.body ≠ "null".toList ∧
      (sizedEntries files = [] → (getFileList cfg .fresh r w).1.body = "[]".toList)) := by
  rcases getFileList_outcomes cfg r w user ha with ⟨h1, -⟩ | ⟨-, ⟨e0, he0⟩, h⟩ | ⟨-, fs0, hf0, h⟩
  · exact absurd hp h1
  · refine ⟨fun e _ => by rw [h]; rfl, fun files hf => ?_⟩
    rw [he0] at hf
    exact Except.noConfusion hf
  · refine ⟨fun e he => ?_, fun files hf => ?_⟩
    · rw [hf0] at he
      exact Except.noConfusion he
    · rw [hf0] at hf
      have hfiles : fs0 = files := by injection hf
      subst hfiles
      rw [h]
      refine ⟨rfl, ?_, rfl, ?_, ?_⟩
      · exact readListing_jsonArray (sizedEntries fs0)
      · intro hb
        have h0 := congrArg List.head? hb
        simp at h0
      · intro hempty
        show jsonArray ((sizedEntries fs0).map jsonFile) = _
        rw [hempty]
        rfl

/-- Witness for C8: `alice` lists `proj1`, whose directory holds a file of six
bytes, a directory and a name whose size lookup fails. -/
theorem listing_body_witness :
    readListing (getFileList sampleConfig .fresh
      (mkRequest "proj1".toList [] (some "Token alice".toList) none) ⟨listingFS, []⟩).1.body =
    some [⟨"docs".toList, 4096⟩, ⟨"notes.txt".toList, 6⟩] :=
  ((listing_body sampleConfig (mkRequest "proj1".toList [] (some "Token alice".toList) none)
    ⟨listingFS, []⟩ "alice".toList (by decide) (by decide)).2
    [⟨"docs".toList, .dir 4096⟩, ⟨"gone".toList, .ghost⟩,
      ⟨"notes.txt".toList, .file "héllo".toList⟩] rfl).2.1

/-! ## Error bodies -/

/-- C9 at the failing input: on a filesystem with two free bytes `alice`
uploads five bytes to `proj1`.  The write fails, the status is 500 and the
body is `{"error", "failed to write file"}`, which is not a JSON object; the
bodies of the other error responses are. -/
theorem write_failure_body_is_not_json :
    (createFile sampleConfig .fresh
      (mkRequest "proj1".toList [] (some "Token alice".toList)
        (some ("notes.txt".toList, "hello".toList))) ⟨fullFS, []⟩).1.status = 500 ∧
    (createFile sampleConfig .fresh
      (mkRequest "proj1".toList [] (some "Token alice".toList)
        (some ("notes.txt".toList, "hello".toList))) ⟨fullFS, []⟩).1.body =
      "\x7b\"error\", \"failed to write file\"\x7d\n".toList ∧
    isErrorObject (createFile sampleConfig .fresh
      (mkRequest "proj1".toList [] (some "Token alice".toList)
        (some ("notes.txt".toList, "hello".toList))) ⟨fullFS, []⟩).1.body = false ∧
    isErrorObject "\x7b\"error\": \"failed to create file\"\x7d\n".toList = true := by
  decide

/-- Every error response of the three handlers other than the one for a
failed write has a body that is a JSON object with the single key `error`. -/
theorem other_error_bodies_are_json (cfg : Config) (r : Request) (w : World) :
    ((getFileList cfg .fresh r w).1.status ≠ 200 →
      isErrorObject (getFileList cfg .fresh r w).1.body = true) ∧
    ((getFile cfg .fresh r w).1.status ≠ 200 →
      isErrorObject (getFile cfg .fresh r w).1.body = true) ∧
    ((createFile cfg .fresh r w).1.status ≠ 200 →
      isErrorObject (createFile cfg .fresh r w).1.body = true ∨
      (createFile cfg .fresh r w).1.body =
        "\x7b\"error\", \"failed to write file\"\x7d\n".toList) := by
  have b1 : isErrorObject (httpError .fresh
      "\x7b\"error\": \"Unauthorized\"\x7d".toList StatusUnauthorized).body = true := by decide
  have b2 : isErrorObject (httpError .fresh
      "\x7b\"error\": \"forbidden\"\x7d".toList StatusForbidden).body = true := by decide
  have b3 : isErrorObject (httpError .fresh
      "\x7b\"error\": \"failed to list projects\"\x7d".toList
      StatusInternalServerError).body = true := by decide
  have b4 : isErrorObject (httpError .fresh
      "\x7b\"error\": \"failed to retrieve file\"\x7d".toList
      StatusInternalServerError).body = true := by decide
  have b5 : isErrorObject (httpError .fresh
      "\x7b\"error\": \"failed to create file\"\x7d".toList
      StatusInternalServerError).body = true := by decide
  have b6 : isErrorObject (httpError .fresh
      "\x7b\"error\": \"failed to get source file\"\x7d".toList
      StatusBadRequest).body = true := by decide
  by_cases hex : ∃ rest, r.HeaderGet "Authorization".toList = tokenPrefix ++ rest
  · obtain ⟨user, ha⟩ := hex
    refine ⟨?_, ?_, ?_⟩
    · rcases getFileList_outcomes cfg r w user ha with ⟨-, h⟩ | ⟨-, -, h⟩ | ⟨-, files, -, h⟩
      · intro _; rw [h]; exact b2
      · intro _; rw [h]; exact b3
      · intro hs; rw [h] at hs; exact absurd rfl hs
    · rcases getFile_outcomes cfg r w user ha with ⟨-, h⟩ | ⟨-, -, h⟩ | ⟨-, data, -, h⟩
      · intro _; rw [h]; exact b2
      · intro _; rw [h]; exact b4
      · intro hs; rw [h] at hs; exact absurd rfl hs
    · cases hff : r.FormFile "source".toList w with
      | mk w0 res =>
        cases res with
        | none =>
          intro _
          rw [createFile_no_source cfg _ r w (by rw [hff])]; exact Or.inl b6
        | some up =>
          obtain ⟨file, header⟩ := up
          rcases createFile_outcomes cfg r w w0 user file header hff ha with
            ⟨-, h⟩ | ⟨-, -, h⟩ | ⟨-, dst, -, -, h⟩ | ⟨-, dst, -, -, h⟩
          · intro _; rw [h]; exact Or.inl b2
          · intro _; rw [h]; exact Or.inl b5
          · intro _; rw [h]; exact Or.inr rfl
          · intro hs; rw [h] at hs; exact absurd rfl hs
  · refine ⟨?_, ?_, ?_⟩
    · intro _; rw [getFileList_unauthorized cfg _ r w hex]; exact b1
    · intro _; rw [getFile_unauthorized cfg _ r w hex]; exact b1
    · cases hf : (r.FormFile "source".toList w).2 with
      | none => intro _; rw [createFile_no_source cfg _ r w hf]; exact Or.inl b6
      | some up => intro _; rw [createFile_unauthorized cfg _ r w up hf hex]; exact Or.inl b1

/-! ## Lemmas on `strings.Split`, `strings.Join` and `filepath.Clean` -/

theorem stringsSplit_ne_nil (s : Str) (sep : Char) : stringsSplit s sep ≠ [] := by
  cases s with
  | nil => simp [stringsSplit]
  | cons c cs =>
    unfold stringsSplit
    split
    · simp
    · split <;> simp

theorem stringsSplit_cons_ne (c : Char) (cs : Str) (sep : Char) (h : c ≠ sep) :
    ∃ piece pieces, stringsSplit cs sep = piece :: pieces ∧
      stringsSplit (c :: cs) sep = (c :: piece) :: pieces := by
  cases hs : stringsSplit cs sep with
  | nil => exact absurd hs (stringsSplit_ne_nil cs sep)
  | cons piece pieces =>
    refine ⟨piece, pieces, rfl, ?_⟩
    rw [stringsSplit, if_neg h, hs]

theorem stringsSplit_cons_sep (cs : Str) (sep : Char) :
    stringsSplit (sep :: cs) sep = [] :: stringsSplit cs sep := by
  rw [stringsSplit, if_pos rfl]

/-- No piece of a split contains the separator. -/
theorem stringsSplit_no_sep (s : Str) (sep : Char) :
    ∀ e ∈ stringsSplit s sep, sep ∉ e := by
  induction s with
  | nil => simp [stringsSplit]
  | cons c cs ih =>
    by_cases h : c = sep
    · subst h
      rw [stringsSplit_cons_sep]
      intro e he
      rcases List.mem_cons.1 he with rfl | he
      · simp
      · exact ih e he
    · obtain ⟨piece, pieces, h1, h2⟩ := stringsSplit_cons_ne c cs sep h
      rw [h2]
      rw [h1] at ih
      intro e he
      rcases List.mem_cons.1 he with rfl | he
      · intro hm
        rcases List.mem_cons.1 hm with hc | hm
        · exact h hc.symm
        · exact ih piece (List.mem_cons_self _ _) hm
      · exact ih e (List.mem_cons_of_mem _ he)

/-- A string without the separator is its own single piece. -/
theorem stringsSplit_self (s : Str) (sep : Char) (h : sep ∉ s) :
    stringsSplit s sep = [s] := by
  induction s with
  | nil => rfl
  | cons c cs ih =>
    have hc : c ≠ sep := fun e => h (by simp [e])
    have hcs : sep ∉ cs := fun e => h (List.mem_cons_of_mem _ e)
    rw [stringsSplit, if_neg hc, ih hcs]

/-- Splitting `a ++ sep :: t` when `a` has no separator. -/
theorem stringsSplit_append_sep (a t : Str) (sep : Char) (h : sep ∉ a) :
    stringsSplit (a ++ sep :: t) sep = a :: stringsSplit t sep := by
  induction a with
  | nil => exact stringsSplit_cons_sep t sep
  | cons c cs ih =>
    have hc : c ≠ sep := fun e => h (by simp [e])
    have hcs : sep ∉ cs := fun e => h (List.mem_cons_of_mem _ e)
    rw [List.cons_append, stringsSplit, if_neg hc, ih hcs]

/-- Splitting `s ++ sep :: c` when `c` has no separator. -/
theorem stringsSplit_snoc (s c : Str) (sep : Char) (h : sep ∉ c) :
    stringsSplit (s ++ sep :: c) sep = stringsSplit s sep ++ [c] := by
  induction s with
  | nil =>
    rw [List.nil_append, stringsSplit_cons_sep, stringsSplit_self c sep h]
    rfl
  | cons x xs ih =>
    by_cases hx : x = sep
    · subst hx
      rw [List.cons_append, stringsSplit_cons_sep, stringsSplit_cons_sep, ih]
      rfl
    · obtain ⟨piece, pieces, h1, h2⟩ := stringsSplit_cons_ne x xs sep hx
      rw [h2, List.cons_append, stringsSplit, if_neg hx, ih, h1]
      rfl

theorem stringsJoin_snoc (l : List Str) (c sep : Str) (h : l ≠ []) :
    stringsJoin (l ++ [c]) sep = stringsJoin l sep ++ sep ++ c := by
  induction l with
  | nil => exact absurd rfl h
  | cons a rest ih =>
    cases rest with
    | nil => simp [stringsJoin]
    | cons b rest2 =>
      have hh := ih (by simp)
      show a ++ sep ++ stringsJoin (b :: rest2 ++ [c]) sep =
        a ++ sep ++ stringsJoin (b :: rest2) sep ++ sep ++ c
      rw [hh]
      simp [List.append_assoc]

/-- Splitting a join of separator-free elements gives the elements back. -/
theorem stringsSplit_join (l : List Str) (sep : Char) (hne : l ≠ [])
    (h : ∀ e ∈ l, sep ∉ e) : stringsSplit (stringsJoin l [sep]) sep = l := by
  induction l with
  | nil => exact absurd rfl hne
  | cons a rest ih =>
    cases rest with
    | nil => exact stringsSplit_self a sep (h a (List.mem_cons_self _ _))
    | cons b rest2 =>
      have hrest : ∀ e ∈ b :: rest2, sep ∉ e := fun e he => h e (List.mem_cons_of_mem _ he)
      have := ih (by simp) hrest
      simp only [stringsJoin, List.append_assoc, List.singleton_append]
      rw [stringsSplit_append_sep _ _ _ (h a (List.mem_cons_self _ _)), this]

theorem goodElems_dropLast (out : List Str) (h : goodElems out) : goodElems out.dropLast :=
  fun e he => h e (List.dropLast_subset out he)

theorem goodElems_snoc (out : List Str) (e : Str) (h : goodElems out)
    (he : e ≠ [] ∧ '/' ∉ e ∧ e ≠ ['.']) : goodElems (out ++ [e]) := by
  intro x hx
  rcases List.mem_append.1 hx with hx | hx
  · exact h x hx
  · rw [List.mem_singleton.1 hx]; exact he

theorem cleanStep_good (rooted : Bool) (b : CleanBuf) (elem : Str) (h : goodElems b.out)
    (he : '/' ∉ elem) : goodElems (cleanStep rooted b elem).out := by
  unfold cleanStep
  split
  · exact h
  · split
    · exact h
    · split
      · split
        · exact goodElems_dropLast _ h
        · split
          · rename_i h1 h2 h3 _ _
            exact goodElems_snoc _ _ h ⟨h1, he, h2⟩
          · exact h
      · rename_i h1 h2 h3
        exact goodElems_snoc _ _ h ⟨h1, he, h2⟩

theorem foldl_cleanStep_good (rooted : Bool) (elems : List Str) (b : CleanBuf)
    (h : goodElems b.out) (he : ∀ e ∈ elems, '/' ∉ e) :
    goodElems (elems.foldl (cleanStep rooted) b).out := by
  induction elems generalizing b with
  | nil => exact h
  | cons x xs ih =>
    rw [List.foldl_cons]
    exact ih _ (cleanStep_good rooted b x h (he x (List.mem_cons_self _ _)))
      (fun e hm => he e (List.mem_cons_of_mem _ hm))

theorem cleanElems_good (rooted : Bool) (path : Str) : goodElems (cleanElems rooted path) :=
  foldl_cleanStep_good rooted _ _ (fun _ h => absurd h (List.not_mem_nil _))
    (stringsSplit_no_sep path '/')

theorem cleanStep_plain (rooted : Bool) (b : CleanBuf) (c : Str) (hc : plainSegment c) :
    (cleanStep rooted b c).out = b.out ++ [c] := by
  unfold cleanStep
  rw [if_neg hc.1, if_neg hc.2.2.1, if_neg hc.2.2.2]

/-- Cleaning `s/c` keeps the elements of `s` and then `c`, for a plain `c`. -/
theorem cleanElems_snoc (rooted : Bool) (s c : Str) (hc : plainSegment c) :
    cleanElems rooted (s ++ '/' :: c) = cleanElems rooted s ++ [c] := by
  unfold cleanElems
  rw [stringsSplit_snoc s c '/' hc.2.1, List.foldl_append, List.foldl_cons, List.foldl_nil,
    cleanStep_plain rooted _ c hc]

theorem isRooted_append (s t : Str) (h : s ≠ []) : isRooted (s ++ t) = isRooted s := by
  cases s with
  | nil => exact absurd rfl h
  | cons c cs => rfl

theorem isRooted_of_no_sep (e : Str) (h : '/' ∉ e) : isRooted e = false := by
  cases e with
  | nil => rfl
  | cons c cs =>
    have hc : c ≠ '/' := fun e => h (by simp [e])
    simp [isRooted, hc]

theorem stringsJoin_cons_ne_nil (a : Str) (rest : List Str) (sep : Str) (h : a ≠ []) :
    stringsJoin (a :: rest) sep ≠ [] := by
  cases rest with
  | nil => exact h
  | cons b rest2 =>
    simp only [stringsJoin]
    intro hnil
    exact h (List.append_eq_nil.1 (List.append_eq_nil.1 hnil).1).1

theorem isRooted_stringsJoin (a : Str) (rest : List Str) (h : a ≠ []) :
    isRooted (stringsJoin (a :: rest) ['/']) = isRooted a := by
  cases rest with
  | nil => rfl
  | cons b rest2 =>
    simp only [stringsJoin, List.append_assoc]
    exact isRooted_append a _ h

/-- The elements of a join of good elements are those elements. -/
theorem pathElems_stringsJoin (out : List Str) (h : goodElems out) :
    pathElems (stringsJoin out ['/']) = out := by
  cases out with
  | nil => rfl
  | cons a rest =>
    unfold pathElems
    rw [stringsSplit_join (a :: rest) '/' (by simp) (fun e he => (h e he).2.1)]
    apply List.filter_eq_self.2
    intro e he
    simp [(h e he).1, (h e he).2.2]

/-- The path elements of a cleaned path are the elements `filepath.Clean` kept. -/
theorem pathElems_filepathClean (s : Str) (hs : s ≠ []) :
    pathElems (filepathClean s) = cleanElems (isRooted s) s := by
  have hg := cleanElems_good (isRooted s) s
  unfold filepathClean
  rw [if_neg hs]
  simp only []
  split
  · have : pathElems ('/' :: stringsJoin (cleanElems (isRooted s) s) ['/']) =
        pathElems (stringsJoin (cleanElems (isRooted s) s) ['/']) := by
      unfold pathElems
      rw [stringsSplit_cons_sep]
      simp
    rw [this, pathElems_stringsJoin _ hg]
  · split
    · rename_i hnil
      rw [hnil]
      rfl
    · exact pathElems_stringsJoin _ hg

/-- Cleaning keeps a path rooted or unrooted. -/
theorem isRooted_filepathClean (s : Str) (hs : s ≠ []) :
    isRooted (filepathClean s) = isRooted s := by
  have hg := cleanElems_good (isRooted s) s
  unfold filepathClean
  rw [if_neg hs]
  simp only []
  split
  · rename_i hr
    rw [hr]; rfl
  · rename_i hr
    have hr2 : isRooted s = false := by simpa using hr
    rw [hr2]
    split
    · rfl
    · rename_i hne
      cases ho : cleanElems (isRooted s) s with
      | nil => rw [hr2] at ho; exact absurd ho hne
      | cons a rest =>
        rw [ho] at hg
        have ha := hg a (List.mem_cons_self _ _)
        rw [hr2] at ho
        rw [ho, isRooted_stringsJoin a rest ha.1]
        exact isRooted_of_no_sep a ha.2.1

/-- A plain segment is already clean. -/
theorem filepathClean_plain (c : Str) (hc : plainSegment c) : filepathClean c = c := by
  have hr : isRooted c = false := isRooted_of_no_sep c hc.2.1
  have he : cleanElems false c = [c] := by
    unfold cleanElems
    rw [stringsSplit_self c '/' hc.2.1, List.foldl_cons, List.foldl_nil,
      cleanStep_plain false _ c hc]
    rfl
  unfold filepathClean
  rw [if_neg hc.1]
  simp only [hr, he]
  rfl

theorem pathElems_plain (c : Str) (hc : plainSegment c) : pathElems c = [c] := by
  unfold pathElems
  rw [stringsSplit_self c '/' hc.2.1]
  simp [hc.1, hc.2.2.1]

/-- Cleaning `s/c` extends the cleaned `s` by the element `c`, for a plain `c`. -/
theorem filepathClean_snoc (s c : Str) (hs : s ≠ []) (hc : plainSegment c) :
    filepathClean (s ++ '/' :: c) = extendPath (filepathClean s) c := by
  have hg := cleanElems_good (isRooted s) s
  have hs2 : s ++ '/' :: c ≠ [] := by simp
  unfold filepathClean
  rw [if_neg hs, if_neg hs2]
  simp only [isRooted_append s _ hs, cleanElems_snoc _ s c hc]
  cases ho : cleanElems (isRooted s) s with
  | nil =>
    cases hr : isRooted s with
    | true => simp [extendPath, stringsJoin]
    | false => simp [extendPath, stringsJoin]
  | cons a rest =>
    rw [ho] at hg
    have ha := hg a (List.mem_cons_self _ _)
    have hj : stringsJoin (a :: rest ++ [c]) ['/'] =
        stringsJoin (a :: rest) ['/'] ++ '/' :: c := by
      have := stringsJoin_snoc (a :: rest) c ['/'] (by simp)
      simpa [List.append_assoc] using this
    have hne := stringsJoin_cons_ne_nil a rest ['/'] ha.1
    cases hr : isRooted s with
    | true =>
      have h1 : ('/' :: stringsJoin (a :: rest) ['/']) ≠ ['/'] := by
        intro h; exact hne (List.cons.inj h).2
      have h2 : ('/' :: stringsJoin (a :: rest) ['/']) ≠ ['.'] := by
        intro h; exact absurd (List.cons.inj h).1 (by decide)
      simp only [if_true, extendPath, if_neg h1, if_neg h2]
      rw [hj]
      rfl
    | false =>
      have hrj : isRooted (stringsJoin (a :: rest) ['/']) = false := by
        rw [isRooted_stringsJoin a rest ha.1]
        exact isRooted_of_no_sep a ha.2.1
      have h1 : stringsJoin (a :: rest) ['/'] ≠ ['/'] := by
        intro h; rw [h] at hrj; exact absurd hrj (by decide)
      have h2 : stringsJoin (a :: rest) ['/'] ≠ ['.'] := by
        cases rest with
        | nil => exact ha.2.2
        | cons b rest2 =>
          simp only [stringsJoin, List.append_assoc, List.singleton_append]
          intro h
          have hl := congrArg List.length h
          simp only [List.length_append, List.length_cons, List.length_nil] at hl
          have : 0 < a.length := List.length_pos.2 ha.1
          omega
      have hn1 : (a :: rest ++ [c]) ≠ [] := by simp
      simp only [Bool.false_eq_true, if_false, extendPath, if_neg h1, if_neg h2, if_neg hn1,
        List.cons_append, reduceCtorEq]
      rw [← List.cons_append, hj]

/-! ## Lemmas on `filepath.Join` -/

/-- Joining one more plain element: either every earlier element is empty and
the result is the element itself, or the earlier elements join to a
non-empty string `s` and the result is the cleaned `s/c`. -/
theorem filepathJoin_snoc (xs : List Str) (c : Str) (hc : plainSegment c) :
    (filepathJoin xs = [] ∧ filepathJoin (xs ++ [c]) = c) ∨
    ∃ s, s ≠ [] ∧ filepathJoin xs = filepathClean s ∧
      filepathJoin (xs ++ [c]) = filepathClean (s ++ '/' :: c) := by
  induction xs with
  | nil =>
    left
    refine ⟨rfl, ?_⟩
    show filepathJoin [c] = c
    rw [filepathJoin, if_pos hc.1]
    exact filepathClean_plain c hc
  | cons e rest ih =>
    by_cases he : e = []
    · subst he
      have h1 : filepathJoin ([] :: rest) = filepathJoin rest := by
        rw [filepathJoin]; simp
      have h2 : filepathJoin ([] :: rest ++ [c]) = filepathJoin (rest ++ [c]) := by
        rw [List.cons_append, filepathJoin]; simp
      rw [h1, h2]
      exact ih
    · right
      refine ⟨stringsJoin (e :: rest) ['/'], stringsJoin_cons_ne_nil e rest _ he, ?_, ?_⟩
      · rw [filepathJoin, if_pos he]
      · rw [List.cons_append, filepathJoin, if_pos he, ← List.cons_append,
          stringsJoin_snoc (e :: rest) c ['/'] (by simp)]
        simp [List.append_assoc]

/-- Joining one more plain element adds exactly that element. -/
theorem pathElems_filepathJoin_snoc (xs : List Str) (c : Str) (hc : plainSegment c) :
    pathElems (filepathJoin (xs ++ [c])) = pathElems (filepathJoin xs) ++ [c] ∧
    isRooted (filepathJoin (xs ++ [c])) = isRooted (filepathJoin xs) := by
  rcases filepathJoin_snoc xs c hc with ⟨h1, h2⟩ | ⟨s, hs, h1, h2⟩
  · rw [h1, h2]
    exact ⟨pathElems_plain c hc, isRooted_of_no_sep c hc.2.1⟩
  · have hs2 : s ++ '/' :: c ≠ [] := by simp
    rw [h1, h2, pathElems_filepathClean _ hs2, pathElems_filepathClean _ hs,
      isRooted_filepathClean _ hs2, isRooted_filepathClean _ hs, isRooted_append s _ hs,
      cleanElems_snoc _ s c hc]
    exact ⟨rfl, rfl⟩

/-- With a non-empty first element, joining one more plain element extends the
joined path by that element. -/
theorem filepathJoin_extend (root : Str) (xs : List Str) (c : Str) (hroot : root ≠ [])
    (hc : plainSegment c) :
    filepathJoin (root :: xs ++ [c]) = extendPath (filepathJoin (root :: xs)) c := by
  rw [List.cons_append, filepathJoin, if_pos hroot, filepathJoin, if_pos hroot,
    ← List.cons_append, stringsJoin_snoc (root :: xs) c ['/'] (by simp)]
  have := filepathClean_snoc (stringsJoin (root :: xs) ['/']) c
    (stringsJoin_cons_ne_nil root xs _ hroot) hc
  simpa [List.append_assoc] using this

/-- Paths whose elements extend those of the base without `..` lie under it. -/
theorem liesUnder_of_elems (base p : Str) (rest : List Str)
    (hr : isRooted p = isRooted base) (he : pathElems p = pathElems base ++ rest)
    (hd : ['.', '.'] ∉ rest) : liesUnder base p = true := by
  unfold liesUnder
  rw [hr, he, List.drop_left]
  have hpre : (pathElems base).isPrefixOf (pathElems base ++ rest) = true :=
    List.isPrefixOf_iff_prefix.2 (List.prefix_append _ _)
  simp [hpre, hd]

/-! ## Confinement of the resolved paths -/

/-- C10: with a non-empty root, and a project name and a file name that are
plain segments, the project directory path is the data root extended by the
one element `project`, the content path is the project directory path
extended by the one element `fileName`, and both lie under the data root. -/
theorem resolved_paths_confined (cfg : Config) (project fileName : Str)
    (hroot : cfg.Root ≠ []) (hp : plainSegment project) (hf : plainSegment fileName) :
    projectPath cfg project = extendPath (dataRoot cfg) project ∧
    contentPath cfg project fileName = extendPath (projectPath cfg project) fileName ∧
    pathElems (projectPath cfg project) = pathElems (dataRoot cfg) ++ [project] ∧
    pathElems (contentPath cfg project fileName) =
      pathElems (dataRoot cfg) ++ [project, fileName] ∧
    liesUnder (dataRoot cfg) (projectPath cfg project) = true ∧
    liesUnder (dataRoot cfg) (contentPath cfg project fileName) = true := by
  have e1 := pathElems_filepathJoin_snoc [cfg.Root, cfg.DataDir] project hp
  have e2 := pathElems_filepathJoin_snoc [cfg.Root, cfg.DataDir, project] fileName hf
  have e3 : pathElems (contentPath cfg project fileName) =
      pathElems (dataRoot cfg) ++ [project, fileName] := by
    show pathElems (filepathJoin ([cfg.Root, cfg.DataDir, project] ++ [fileName])) = _
    rw [e2.1]
    show pathElems (filepathJoin ([cfg.Root, cfg.DataDir] ++ [project])) ++ [fileName] = _
    rw [e1.1]
    simp [dataRoot]
  have hne1 : (['.', '.'] : Str) ∉ [project] := by
    simp only [List.mem_singleton]
    exact fun h => hp.2.2.2 h.symm
  have hne2 : (['.', '.'] : Str) ∉ [project, fileName] := by
    simp only [List.mem_cons, List.mem_singleton, List.not_mem_nil, or_false, not_or]
    exact ⟨fun h => hp.2.2.2 h.symm, fun h => hf.2.2.2 h.symm⟩
  refine ⟨filepathJoin_extend cfg.Root [cfg.DataDir] project hroot hp,
    filepathJoin_extend cfg.Root [cfg.DataDir, project] fileName hroot hf, e1.1, e3,
    liesUnder_of_elems _ _ [project] e1.2 e1.1 hne1,
    liesUnder_of_elems _ _ [project, fileName] ?_ e3 hne2⟩
  exact e2.2.trans e1.2

/-- Witness for C10: project `proj1` and file `notes.txt` under `/srv/data`. -/
theorem resolved_paths_confined_witness :
    projectPath sampleConfig "proj1".toList = "/srv/data/proj1".toList ∧
    contentPath sampleConfig "proj1".toList "notes.txt".toList =
      extendPath (projectPath sampleConfig "proj1".toList) "notes.txt".toList ∧
    liesUnder (dataRoot sampleConfig)
      (contentPath sampleConfig "proj1".toList "notes.txt".toList) = true :=
  have h := resolved_paths_confined sampleConfig "proj1".toList "notes.txt".toList
    (by decide) (by decide) (by decide)
  ⟨h.1.trans (by decide), h.2.1, h.2.2.2.2.2⟩

/-! ## Lemmas on segments that never climb -/

/-- Splitting `a ++ sep :: t` splits both sides. -/
theorem stringsSplit_append (a t : Str) (sep : Char) :
    stringsSplit (a ++ sep :: t) sep = stringsSplit a sep ++ stringsSplit t sep := by
  induction a with
  | nil =>
    rw [List.nil_append, stringsSplit_cons_sep]
    rfl
  | cons x xs ih =>
    by_cases hx : x = sep
    · subst hx
      rw [List.cons_append, stringsSplit_cons_sep, stringsSplit_cons_sep, ih]
      rfl
    · obtain ⟨piece, pieces, h1, h2⟩ := stringsSplit_cons_ne x xs sep hx
      rw [h2, List.cons_append, stringsSplit, if_neg hx, ih, h1]
      rfl

/-- The pieces of joined segments are the pieces of the segments. -/
theorem stringsSplit_stringsJoin (ys : List Str) (hne : ys ≠ []) :
    stringsSplit (stringsJoin ys ['/']) '/' = segmentElems ys := by
  induction ys with
  | nil => exact absurd rfl hne
  | cons a rest ih =>
    cases rest with
    | nil => simp [stringsJoin, segmentElems]
    | cons b rest2 =>
      have := ih (by simp)
      simp only [stringsJoin, List.append_assoc, List.singleton_append]
      rw [stringsSplit_append, this]
      simp [segmentElems]

theorem stringsJoin_append (l m : List Str) (sep : Str) (hl : l ≠ []) (hm : m ≠ []) :
    stringsJoin (l ++ m) sep = stringsJoin l sep ++ sep ++ stringsJoin m sep := by
  induction l with
  | nil => exact absurd rfl hl
  | cons a rest ih =>
    cases rest with
    | nil =>
      cases m with
      | nil => exact absurd rfl hm
      | cons b m2 => rfl
    | cons b rest2 =>
      have hh := ih (by simp)
      show a ++ sep ++ stringsJoin (b :: rest2 ++ m) sep =
        a ++ sep ++ stringsJoin (b :: rest2) sep ++ sep ++ stringsJoin m sep
      rw [hh]
      simp [List.append_assoc]

/-- `filepath.Clean` never protects more elements than it has kept. -/
theorem cleanStep_dotdot_le (rooted : Bool) (b : CleanBuf) (elem : Str)
    (h : b.dotdot ≤ b.out.length) :
    (cleanStep rooted b elem).dotdot ≤ (cleanStep rooted b elem).out.length := by
  unfold cleanStep
  split
  · exact h
  · split
    · exact h
    · split
      · split
        · rename_i hgt
          simp only [List.length_dropLast]
          omega
        · split
          · simp
          · exact h
      · simp only [List.length_append, List.length_cons, List.length_nil]
        omega

theorem foldl_cleanStep_dotdot_le (rooted : Bool) (elems : List Str) (b : CleanBuf)
    (h : b.dotdot ≤ b.out.length) :
    (elems.foldl (cleanStep rooted) b).dotdot ≤ (elems.foldl (cleanStep rooted) b).out.length := by
  induction elems generalizing b with
  | nil => exact h
  | cons x xs ih =>
    rw [List.foldl_cons]
    exact ih _ (cleanStep_dotdot_le rooted b x h)

/-- Elements that never climb leave the kept elements `base` alone: what
`filepath.Clean` keeps after them is `base` followed by elements none of
which is `..`. -/
theorem foldl_cleanStep_below (rooted : Bool) (elems : List Str) (base loc : List Str)
    (dd : Nat) (hdd : dd ≤ base.length) (hloc : (['.', '.'] : Str) ∉ loc)
    (hn : neverClimbs loc.length elems = true) :
    ∃ loc2, elems.foldl (cleanStep rooted) ⟨base ++ loc, dd⟩ = ⟨base ++ loc2, dd⟩ ∧
      (['.', '.'] : Str) ∉ loc2 := by
  induction elems generalizing loc with
  | nil => exact ⟨loc, rfl, hloc⟩
  | cons e es ih =>
    rw [List.foldl_cons]
    unfold neverClimbs at hn
    by_cases h1 : e = [] ∨ e = ['.']
    · rw [if_pos h1] at hn
      have hs : cleanStep rooted ⟨base ++ loc, dd⟩ e = ⟨base ++ loc, dd⟩ := by
        unfold cleanStep
        rcases h1 with h1 | h1
        · rw [if_pos h1]
        · have : e ≠ [] := by rw [h1]; simp
          rw [if_neg this, if_pos h1]
      rw [hs]
      exact ih loc hloc hn
    · rw [if_neg h1] at hn
      have e1 : e ≠ [] := fun h => h1 (Or.inl h)
      have e2 : e ≠ ['.'] := fun h => h1 (Or.inr h)
      by_cases h2 : e = ['.', '.']
      · rw [if_pos h2] at hn
        simp only [Bool.and_eq_true, decide_eq_true_eq] at hn
        obtain ⟨hpos, hn2⟩ := hn
        have hlne : loc ≠ [] := List.length_pos.1 hpos
        have hs : cleanStep rooted ⟨base ++ loc, dd⟩ e = ⟨base ++ loc.dropLast, dd⟩ := by
          unfold cleanStep
          rw [if_neg e1, if_neg e2, if_pos h2]
          have hgt : (base ++ loc).length > dd := by
            simp only [List.length_append]; omega
          simp only []
          rw [if_pos hgt, List.dropLast_append_of_ne_nil _ hlne]
        rw [hs]
        apply ih loc.dropLast (fun hm => hloc (List.dropLast_subset loc hm))
        rw [List.length_dropLast]
        exact hn2
      · rw [if_neg h2] at hn
        have hs : cleanStep rooted ⟨base ++ loc, dd⟩ e = ⟨base ++ (loc ++ [e]), dd⟩ := by
          unfold cleanStep
          rw [if_neg e1, if_neg e2, if_neg h2]
          simp [List.append_assoc]
        rw [hs]
        apply ih (loc ++ [e])
        · intro hm
          rcases List.mem_append.1 hm with hm | hm
          · exact hloc hm
          · exact h2 (List.mem_singleton.1 hm).symm
        · rw [List.length_append]
          exact hn

/-- Cleaning `s/rel` keeps the elements of `s` and adds elements none of which
is `..`, when the elements of `rel` never climb. -/
theorem cleanElems_below (rooted : Bool) (s rel : Str)
    (hn : neverClimbs 0 (stringsSplit rel '/') = true) :
    ∃ loc, cleanElems rooted (s ++ '/' :: rel) = cleanElems rooted s ++ loc ∧
      (['.', '.'] : Str) ∉ loc := by
  unfold cleanElems
  rw [stringsSplit_append, List.foldl_append]
  have hdd := foldl_cleanStep_dotdot_le rooted (stringsSplit s '/') ⟨[], 0⟩ (le_refl _)
  generalize (stringsSplit s '/').foldl (cleanStep rooted) ⟨[], 0⟩ = b at hdd ⊢
  obtain ⟨out, dd⟩ := b
  obtain ⟨loc2, h1, h2⟩ := foldl_cleanStep_below rooted (stringsSplit rel '/') out [] dd hdd
    (List.not_mem_nil _) hn
  rw [List.append_nil] at h1
  rw [h1]
  exact ⟨loc2, rfl, h2⟩

theorem filepathClean_ne_nil (s : Str) : filepathClean s ≠ [] := by
  unfold filepathClean
  split
  · simp
  · simp only []
    split
    · simp
    · split
      · simp
      · rename_i hne
        cases ho : cleanElems (isRooted s) s with
        | nil => exact absurd ho hne
        | cons a rest =>
          have hg := cleanElems_good (isRooted s) s
          rw [ho] at hg
          exact stringsJoin_cons_ne_nil a rest _ (hg a (List.mem_cons_self _ _)).1

/-- Joining more segments: either every earlier element is empty and the
result is the join of the segments alone, or the earlier elements join to a
non-empty string `s` and the result is the cleaned `s/segments`. -/
theorem filepathJoin_append (xs ys : List Str) (hys : ys ≠ []) :
    (filepathJoin xs = [] ∧ filepathJoin (xs ++ ys) = filepathJoin ys) ∨
    ∃ s, s ≠ [] ∧ filepathJoin xs = filepathClean s ∧
      filepathJoin (xs ++ ys) = filepathClean (s ++ '/' :: stringsJoin ys ['/']) := by
  induction xs with
  | nil => exact Or.inl ⟨rfl, rfl⟩
  | cons e rest ih =>
    by_cases he : e = []
    · subst he
      have h1 : filepathJoin ([] :: rest) = filepathJoin rest := by
        rw [filepathJoin]; simp
      have h2 : filepathJoin ([] :: rest ++ ys) = filepathJoin (rest ++ ys) := by
        rw [List.cons_append, filepathJoin]; simp
      rw [h1, h2]
      exact ih
    · right
      refine ⟨stringsJoin (e :: rest) ['/'], stringsJoin_cons_ne_nil e rest _ he, ?_, ?_⟩
      · rw [filepathJoin, if_pos he]
      · rw [List.cons_append, filepathJoin, if_pos he, ← List.cons_append,
          stringsJoin_append (e :: rest) ys ['/'] (by simp) hys]
        simp [List.append_assoc]

theorem neverClimbs_skip_empty (depth : Nat) (es : List Str) :
    neverClimbs depth ([] :: es) = neverClimbs depth es := by
  rw [neverClimbs, if_pos (Or.inl rfl)]

/-- Segments that never climb and are not rooted join to a path without `..`. -/
theorem pathElems_filepathJoin_below (ys : List Str) (hstay : staysBelow ys = true)
    (hr : isRooted (filepathJoin ys) = false) :
    (['.', '.'] : Str) ∉ pathElems (filepathJoin ys) := by
  induction ys with
  | nil => simp [filepathJoin, pathElems, stringsSplit]
  | cons e rest ih =>
    by_cases he : e = []
    · subst he
      have h1 : filepathJoin ([] :: rest) = filepathJoin rest := by
        rw [filepathJoin]; simp
      rw [h1] at hr ⊢
      apply ih _ hr
      unfold staysBelow segmentElems at hstay ⊢
      rw [List.flatMap_cons] at hstay
      exact (neverClimbs_skip_empty 0 _).symm.trans hstay
    · have hs := stringsJoin_cons_ne_nil e rest ['/'] he
      have h1 : filepathJoin (e :: rest) = filepathClean (stringsJoin (e :: rest) ['/']) := by
        rw [filepathJoin, if_pos he]
      rw [h1] at hr ⊢
      rw [isRooted_filepathClean _ hs] at hr
      rw [pathElems_filepathClean _ hs, hr]
      unfold cleanElems
      rw [stringsSplit_stringsJoin _ (by simp)]
      obtain ⟨loc2, h2, h3⟩ := foldl_cleanStep_below false (segmentElems (e :: rest)) [] [] 0
        (le_refl _) (List.not_mem_nil _) hstay
      rw [List.append_nil] at h2
      rw [h2]
      exact h3

/-- The segments appended to the trusted elements keep the path under the join
of the trusted elements when they never climb, and the trusted elements are
not all empty or the segments are not rooted on their own. -/
theorem filepathJoin_lies_under (xs ys : List Str) (hys : ys ≠ [])
    (hstay : staysBelow ys = true)
    (hroot : filepathJoin xs ≠ [] ∨ isRooted (filepathJoin ys) = false) :
    liesUnder (filepathJoin xs) (filepathJoin (xs ++ ys)) = true := by
  rcases filepathJoin_append xs ys hys with ⟨h1, h2⟩ | ⟨s, hs, h1, h2⟩
  · have hr : isRooted (filepathJoin ys) = false := by
      rcases hroot with h | h
      · exact absurd h1 h
      · exact h
    rw [h1, h2]
    exact liesUnder_of_elems [] _ (pathElems (filepathJoin ys)) hr rfl
      (pathElems_filepathJoin_below ys hstay hr)
  · have hs2 : s ++ '/' :: stringsJoin ys ['/'] ≠ [] := by simp
    have hn : neverClimbs 0 (stringsSplit (stringsJoin ys ['/']) '/') = true := by
      rw [stringsSplit_stringsJoin ys hys]; exact hstay
    obtain ⟨loc, hl1, hl2⟩ := cleanElems_below (isRooted s) s (stringsJoin ys ['/']) hn
    rw [h1, h2]
    apply liesUnder_of_elems _ _ loc
    · rw [isRooted_filepathClean _ hs2, isRooted_filepathClean _ hs, isRooted_append s _ hs]
    · rw [pathElems_filepathClean _ hs2, pathElems_filepathClean _ hs, isRooted_append s _ hs,
        hl1]
    · exact hl2

theorem filepathJoin_ne_nil (x : Str) (rest : List Str) (h : x ≠ []) :
    filepathJoin (x :: rest) ≠ [] := by
  rw [filepathJoin, if_pos h]
  exact filepathClean_ne_nil _

theorem filepathJoin_pair_ne_nil (a b : Str) (h : a ≠ [] ∨ b ≠ []) :
    filepathJoin [a, b] ≠ [] := by
  by_cases ha : a = []
  · subst ha
    rcases h with h | h
    · exact absurd rfl h
    · have : filepathJoin [[], b] = filepathJoin [b] := by rw [filepathJoin]; simp
      rw [this]
      exact filepathJoin_ne_nil b [] h
  · exact filepathJoin_ne_nil a [b] ha

/-! ## Segments that climb leave some root -/

theorem stringsSplit_length_le (s : Str) (sep : Char) :
    ∀ e ∈ stringsSplit s sep, e.length ≤ s.length := by
  induction s with
  | nil => simp [stringsSplit]
  | cons c cs ih =>
    by_cases h : c = sep
    · subst h
      rw [stringsSplit_cons_sep]
      intro e he
      rcases List.mem_cons.1 he with rfl | he
      · simp
      · have := ih e he
        simp only [List.length_cons]; omega
    · obtain ⟨piece, pieces, h1, h2⟩ := stringsSplit_cons_ne c cs sep h
      rw [h2]
      rw [h1] at ih
      intro e he
      rcases List.mem_cons.1 he with rfl | he
      · have := ih piece (List.mem_cons_self _ _)
        simp only [List.length_cons]; omega
      · have := ih e (List.mem_cons_of_mem _ he)
        simp only [List.length_cons]; omega

theorem length_le_sum (ys : List Str) (s : Str) (h : s ∈ ys) :
    s.length ≤ (ys.map List.length).sum := by
  induction ys with
  | nil => exact absurd h (List.not_mem_nil _)
  | cons a rest ih =>
    simp only [List.map_cons, List.sum_cons]
    rcases List.mem_cons.1 h with rfl | h
    · omega
    · have := ih h; omega

/-- No element of the segments is the long name. -/
theorem segmentElems_ne_longName (ys : List Str) :
    ∀ e ∈ segmentElems ys, e ≠ longName ys := by
  intro e he heq
  unfold segmentElems at he
  obtain ⟨s, hs, hes⟩ := List.mem_flatMap.1 he
  have h1 := stringsSplit_length_le s '/' e hes
  have h2 := length_le_sum ys s hs
  have h3 : (longName ys).length = (ys.map List.length).sum + 1 := by
    unfold longName; simp
  rw [heq] at h1
  omega

theorem longName_plain (ys : List Str) : plainSegment (longName ys) := by
  unfold longName plainSegment
  rw [List.replicate_succ]
  refine ⟨by simp, ?_, ?_, ?_⟩
  · intro h
    rcases List.mem_cons.1 h with h | h
    · exact absurd h (by decide)
    · exact absurd (List.eq_of_mem_replicate h) (by decide)
  · intro h
    exact absurd (List.cons.inj h).1 (by decide)
  · intro h
    exact absurd (List.cons.inj h).1 (by decide)

/-- Under a rooted path, once the first kept element is not `d` it never
becomes `d` through elements other than `d`. -/
theorem foldl_cleanStep_head (d : Str) (elems : List Str) (b : CleanBuf)
    (hdd : b.dotdot = 0) (hhead : b.out.head? ≠ some d) (hne : ∀ e ∈ elems, e ≠ d) :
    (elems.foldl (cleanStep true) b).out.head? ≠ some d := by
  induction elems generalizing b with
  | nil => exact hhead
  | cons e es ih =>
    rw [List.foldl_cons]
    have hed : e ≠ d := hne e (List.mem_cons_self _ _)
    apply ih _ _ _ (fun x hx => hne x (List.mem_cons_of_mem _ hx))
    · unfold cleanStep
      split
      · exact hdd
      · split
        · exact hdd
        · split
          · split
            · exact hdd
            · simp only [Bool.not_true, Bool.false_eq_true, if_false]
              exact hdd
          · exact hdd
    · unfold cleanStep
      split
      · exact hhead
      · split
        · exact hhead
        · split
          · split
            · simp only []
              cases hout : b.out with
              | nil => simp
              | cons a rest =>
                rw [hout] at hhead
                cases rest with
                | nil => simp
                | cons a2 rest2 =>
                  simp only [List.dropLast_cons₂, List.head?_cons] at hhead ⊢
                  exact hhead
            · simp only [Bool.not_true, Bool.false_eq_true, if_false]
              exact hhead
          · simp only []
            cases hout : b.out with
            | nil =>
              simp only [List.nil_append, List.head?_cons, ne_eq, Option.some.injEq]
              exact hed
            | cons a rest =>
              rw [hout] at hhead
              simpa using hhead

/-- Under the rooted path `/d`, elements other than `d` that climb take `d`
away for good. -/
theorem foldl_cleanStep_climbs (d : Str) (elems loc : List Str)
    (hne : ∀ e ∈ elems, e ≠ d) (hn : neverClimbs loc.length elems = false) :
    (elems.foldl (cleanStep true) ⟨[d] ++ loc, 0⟩).out.head? ≠ some d := by
  induction elems generalizing loc with
  | nil => simp [neverClimbs] at hn
  | cons e es ih =>
    rw [List.foldl_cons]
    have hes : ∀ x ∈ es, x ≠ d := fun x hx => hne x (List.mem_cons_of_mem _ hx)
    unfold neverClimbs at hn
    by_cases h1 : e = [] ∨ e = ['.']
    · rw [if_pos h1] at hn
      have hs : cleanStep true ⟨[d] ++ loc, 0⟩ e = ⟨[d] ++ loc, 0⟩ := by
        unfold cleanStep
        rcases h1 with h1 | h1
        · rw [if_pos h1]
        · have : e ≠ [] := by rw [h1]; simp
          rw [if_neg this, if_pos h1]
      rw [hs]
      exact ih loc hes hn
    · rw [if_neg h1] at hn
      have e1 : e ≠ [] := fun h => h1 (Or.inl h)
      have e2 : e ≠ ['.'] := fun h => h1 (Or.inr h)
      by_cases h2 : e = ['.', '.']
      · rw [if_pos h2] at hn
        have hgt : ([d] ++ loc).length > 0 := by simp
        by_cases hl : loc = []
        · subst hl
          have hs : cleanStep true ⟨[d] ++ [], 0⟩ e = ⟨[], 0⟩ := by
            unfold cleanStep
            rw [if_neg e1, if_neg e2, if_pos h2]
            simp
          rw [hs]
          exact foldl_cleanStep_head d es ⟨[], 0⟩ rfl (by simp) hes
        · have hs : cleanStep true ⟨[d] ++ loc, 0⟩ e = ⟨[d] ++ loc.dropLast, 0⟩ := by
            unfold cleanStep
            rw [if_neg e1, if_neg e2, if_pos h2]
            simp only []
            rw [if_pos hgt, List.dropLast_append_of_ne_nil _ hl]
          rw [hs]
          apply ih loc.dropLast hes
          have hpos : 0 < loc.length := List.length_pos.2 hl
          simp only [hpos, decide_True, Bool.true_and] at hn
          rw [List.length_dropLast]
          exact hn
      · rw [if_neg h2] at hn
        have hs : cleanStep true ⟨[d] ++ loc, 0⟩ e = ⟨[d] ++ (loc ++ [e]), 0⟩ := by
          unfold cleanStep
          rw [if_neg e1, if_neg e2, if_neg h2]
          simp [List.append_assoc]
        rw [hs]
        apply ih (loc ++ [e]) hes
        rw [List.length_append]
        exact hn

/-- Segments that climb: under a root `/d` whose name no segment contains, the
joined path does not lie under the root. -/
theorem climbing_leaves_far_root (ys : List Str) (hys : ys ≠ [])
    (h : staysBelow ys = false) :
    liesUnder (filepathJoin ['/' :: longName ys, []])
      (filepathJoin (['/' :: longName ys, []] ++ ys)) = false := by
  have hd := longName_plain ys
  have hroot : ('/' :: longName ys) ≠ [] := by simp
  have hs1 : stringsJoin ['/' :: longName ys, []] ['/'] = '/' :: (longName ys ++ ['/']) := by
    simp [stringsJoin]
  have hsplit : stringsSplit ('/' :: (longName ys ++ ['/'])) '/' = [[], longName ys, []] := by
    rw [stringsSplit_cons_sep, stringsSplit_append_sep _ _ _ hd.2.1]
    rfl
  have hbase : cleanElems true ('/' :: (longName ys ++ ['/'])) = [longName ys] := by
    unfold cleanElems
    rw [hsplit]
    simp only [List.foldl_cons, List.foldl_nil]
    have e0 : cleanStep true ⟨[], 0⟩ [] = ⟨[], 0⟩ := rfl
    rw [e0]
    have e1 : (cleanStep true ⟨[], 0⟩ (longName ys)) = ⟨[longName ys], 0⟩ := by
      unfold cleanStep
      rw [if_neg hd.1, if_neg hd.2.2.1, if_neg hd.2.2.2]
      rfl
    rw [e1]
    rfl
  have hj1 : filepathJoin ['/' :: longName ys, []] =
      filepathClean ('/' :: (longName ys ++ ['/'])) := by
    rw [filepathJoin, if_pos hroot, hs1]
  have hj2 : filepathJoin (['/' :: longName ys, []] ++ ys) =
      filepathClean (('/' :: (longName ys ++ ['/'])) ++ '/' :: stringsJoin ys ['/']) := by
    rw [List.cons_append, filepathJoin, if_pos hroot, ← List.cons_append,
      stringsJoin_append _ ys ['/'] (by simp) hys, hs1]
    simp [List.append_assoc]
  have hne1 : ('/' :: (longName ys ++ ['/'])) ≠ [] := by simp
  have hne2 : ('/' :: (longName ys ++ ['/'])) ++ '/' :: stringsJoin ys ['/'] ≠ [] := by simp
  have hp1 : pathElems (filepathJoin ['/' :: longName ys, []]) = [longName ys] := by
    rw [hj1, pathElems_filepathClean _ hne1]
    exact hbase
  have hhead : (pathElems (filepathJoin (['/' :: longName ys, []] ++ ys))).head? ≠
      some (longName ys) := by
    rw [hj2, pathElems_filepathClean _ hne2]
    have hr : isRooted (('/' :: (longName ys ++ ['/'])) ++ '/' :: stringsJoin ys ['/']) = true :=
      rfl
    rw [hr]
    unfold cleanElems
    rw [stringsSplit_append, List.foldl_append, stringsSplit_stringsJoin ys hys]
    have hb : (stringsSplit ('/' :: (longName ys ++ ['/'])) '/').foldl (cleanStep true) ⟨[], 0⟩ =
        ⟨[longName ys] ++ [], 0⟩ := by
      rw [hsplit]
      simp only [List.foldl_cons, List.foldl_nil]
      have e0 : cleanStep true ⟨[], 0⟩ [] = ⟨[], 0⟩ := rfl
      rw [e0]
      have e1 : (cleanStep true ⟨[], 0⟩ (longName ys)) = ⟨[longName ys], 0⟩ := by
        unfold cleanStep
        rw [if_neg hd.1, if_neg hd.2.2.1, if_neg hd.2.2.2]
        rfl
      rw [e1]
      rfl
    rw [hb]
    exact foldl_cleanStep_climbs (longName ys) (segmentElems ys) []
      (segmentElems_ne_longName ys) h
  unfold liesUnder
  rw [hp1]
  cases hpe : pathElems (filepathJoin (['/' :: longName ys, []] ++ ys)) with
  | nil => simp [List.isPrefixOf]
  | cons t ts =>
    rw [hpe] at hhead
    have hne : ¬ (longName ys = t) := by
      intro he
      apply hhead
      simp [he]
    simp [List.isPrefixOf, hne]

/-- Segments that are rooted on their own: with an empty root and directory the
joined path does not lie under the (empty) root path. -/
theorem rooted_leaves_empty_root (ys : List Str) (h : isRooted (filepathJoin ys) = true) :
    liesUnder (filepathJoin [[], []]) (filepathJoin ([[], []] ++ ys)) = false := by
  have h1 : filepathJoin [[], []] = [] := by decide
  have h2 : filepathJoin ([[], []] ++ ys) = filepathJoin ys := by
    simp [filepathJoin]
  unfold liesUnder
  rw [h1, h2, h]
  rfl

/-! ## Which segments stay within the root -/

/-- C2, as the code has it: the handlers do not check their segments.  For
every identity, project name and file name, a resolved path lies under its
root for every configuration exactly when the segments appended to the root
(the identity and `projects`; the project; the project and the file name)
never climb, every `..` among their elements following an element it
removes, and are not rooted on their own; with a non-empty root or directory
it is enough that they never climb. -/
theorem segments_within_their_roots (user project fileName : Str) :
    ((∀ cfg : Config, liesUnder (usersRoot cfg) (permissionsPath cfg user) = true) ↔
      (staysBelow [user, "projects".toList] = true ∧
        isRooted (filepathJoin [user, "projects".toList]) = false)) ∧
    ((∀ cfg : Config, liesUnder (dataRoot cfg) (projectPath cfg project) = true) ↔
      (staysBelow [project] = true ∧ isRooted (filepathJoin [project]) = false)) ∧
    ((∀ cfg : Config, liesUnder (dataRoot cfg) (contentPath cfg project fileName) = true) ↔
      (staysBelow [project, fileName] = true ∧
        isRooted (filepathJoin [project, fileName]) = false)) ∧
    (∀ cfg : Config, (cfg.Root ≠ [] ∨ cfg.UsersDir ≠ []) →
      staysBelow [user, "projects".toList] = true →
      liesUnder (usersRoot cfg) (permissionsPath cfg user) = true) ∧
    (∀ cfg : Config, (cfg.Root ≠ [] ∨ cfg.DataDir ≠ []) →
      staysBelow [project] = true →
      liesUnder (dataRoot cfg) (projectPath cfg project) = true) ∧
    (∀ cfg : Config, (cfg.Root ≠ [] ∨ cfg.DataDir ≠ []) →
      staysBelow [project, fileName] = true →
      liesUnder (dataRoot cfg) (contentPath cfg project fileName) = true) := by
  have key : ∀ (ys : List Str), ys ≠ [] →
      ((∀ a b : Str, liesUnder (filepathJoin [a, b]) (filepathJoin ([a, b] ++ ys)) = true) ↔
        (staysBelow ys = true ∧ isRooted (filepathJoin ys) = false)) := by
    intro ys hys
    constructor
    · intro hall
      constructor
      · cases hs : staysBelow ys with
        | true => rfl
        | false =>
          have h1 := climbing_leaves_far_root ys hys hs
          rw [hall] at h1
          exact absurd h1 (by decide)
      · cases hr : isRooted (filepathJoin ys) with
        | false => rfl
        | true =>
          have h1 := rooted_leaves_empty_root ys hr
          rw [hall] at h1
          exact absurd h1 (by decide)
    · rintro ⟨hs, hr⟩ a b
      exact filepathJoin_lies_under [a, b] ys hys hs (Or.inr hr)
  have fwd : ∀ (ys : List Str) (a b : Str), ys ≠ [] → (a ≠ [] ∨ b ≠ []) →
      staysBelow ys = true →
      liesUnder (filepathJoin [a, b]) (filepathJoin ([a, b] ++ ys)) = true :=
    fun ys a b hys hab hs =>
      filepathJoin_lies_under [a, b] ys hys hs (Or.inl (filepathJoin_pair_ne_nil a b hab))
  refine ⟨?_, ?_, ?_, ?_, ?_, ?_⟩
  · rw [← key [user, "projects".toList] (by simp)]
    exact ⟨fun h a b => h ⟨a, [], b⟩, fun h cfg => h cfg.Root cfg.UsersDir⟩
  · rw [← key [project] (by simp)]
    exact ⟨fun h a b => h ⟨a, b, []⟩, fun h cfg => h cfg.Root cfg.DataDir⟩
  · rw [← key [project, fileName] (by simp)]
    exact ⟨fun h a b => h ⟨a, b, []⟩, fun h cfg => h cfg.Root cfg.DataDir⟩
  · exact fun cfg hc hs => fwd [user, "projects".toList] cfg.Root cfg.UsersDir (by simp) hc hs
  · exact fun cfg hc hs => fwd [project] cfg.Root cfg.DataDir (by simp) hc hs
  · exact fun cfg hc hs => fwd [project, fileName] cfg.Root cfg.DataDir (by simp) hc hs

/-- Witness for C2 as amended: the identity `alice`, the project `a/../proj1`
and the file name `notes.txt` under the sample configuration. -/
theorem segments_within_their_roots_witness :
    liesUnder (usersRoot sampleConfig) (permissionsPath sampleConfig "alice".toList) = true ∧
    liesUnder (dataRoot sampleConfig)
      (contentPath sampleConfig "a/../proj1".toList "notes.txt".toList) = true :=
  ⟨(segments_within_their_roots "alice".toList "a/../proj1".toList "notes.txt".toList).2.2.2.1
      sampleConfig (Or.inl (by decide)) (by decide),
   (segments_within_their_roots "alice".toList "a/../proj1".toList "notes.txt".toList).2.2.2.2.2
      sampleConfig (Or.inl (by decide)) (by decide)⟩

/-- Counterexample to C2 as stated: for the project name `..` the project
directory path is `/srv`, which does not lie under the data root `/srv/data`;
for the identity `..` the permission-list path is `/srv/projects`, outside
`/srv/users`. -/
theorem dotdot_project_leaves_data_root :
    projectPath sampleConfig "..".toList = "/srv".toList ∧
    dataRoot sampleConfig = "/srv/data".toList ∧
    liesUnder (dataRoot sampleConfig) (projectPath sampleConfig "..".toList) = false ∧
    permissionsPath sampleConfig "..".toList = "/srv/projects".toList ∧
    liesUnder (usersRoot sampleConfig) (permissionsPath sampleConfig "..".toList) = false := by
  decide

end MyBackup
